import Mathlib

/-!
# Verification of the foto organization tool

A shallow embedding of the core functions of `foto_organization_tool.py`
(destination-path resolution, extension-based classification, EXIF-driven
moving, duplicate reconciliation, empty-directory pruning), together with
theorems settling the specification claims about them.

The filesystem is modelled explicitly: a record of existing directory paths
and file paths, threaded through the functions that query or mutate it.
Loops of the source that are not structurally terminating are embedded with
an explicit fuel parameter and return `Option`/`Except` results.
-/

namespace FotoOrg

/-! ## Python string primitives, embedded over `List Char` -/

/-- Boolean prefix test on character lists (`sep.isPrefixOf l`). -/
def lPre : List Char → List Char → Bool
  | [], _ => true
  | _ :: _, [] => false
  | a :: as, b :: bs => a = b && lPre as bs

/-- Boolean contiguous-substring test, modelling Python's `pat in s`. -/
def lContains (pat : List Char) : List Char → Bool
  | [] => lPre pat []
  | c :: rest => lPre pat (c :: rest) || lContains pat rest

/-- Python `s.split(sep)` on character lists, with explicit structural fuel
(one unit per consumed character) so that the kernel can evaluate it:
cut at each leftmost, non-overlapping occurrence of `sep`. -/
def splitOnFuel (sep : List Char) : Nat → List Char → List (List Char)
  | _, [] => [[]]
  | 0, l => [l]
  | fuel + 1, c :: rest =>
    if sep ≠ [] ∧ lPre sep (c :: rest) = true then
      [] :: splitOnFuel sep fuel (rest.drop (sep.length - 1))
    else
      match splitOnFuel sep fuel rest with
      | [] => [[c]]
      | h :: t => (c :: h) :: t

/-- Python `s.split(sep)` on character lists. -/
def splitOnL (sep l : List Char) : List (List Char) :=
  splitOnFuel sep l.length l

theorem splitOnFuel_congr (sep : List Char) :
    ∀ fuel1 fuel2 l, l.length ≤ fuel1 → l.length ≤ fuel2 →
      splitOnFuel sep fuel1 l = splitOnFuel sep fuel2 l := by
  intro fuel1
  induction fuel1 with
  | zero =>
    intro fuel2 l h1 _
    have : l = [] := List.length_eq_zero.mp (by omega)
    subst this
    cases fuel2 <;> rfl
  | succ f1 ih =>
    intro fuel2 l h1 h2
    cases l with
    | nil => cases fuel2 <;> rfl
    | cons c rest =>
      obtain ⟨f2, hf2⟩ : ∃ f2, fuel2 = f2 + 1 := by
        cases fuel2 with
        | zero => simp at h2
        | succ f2 => exact ⟨f2, rfl⟩
      subst hf2
      rw [splitOnFuel, splitOnFuel]
      simp only [List.length_cons] at h1 h2
      have hdl : (rest.drop (sep.length - 1)).length ≤ rest.length := by
        rw [List.length_drop]
        omega
      split
      · rw [ih f2 (rest.drop (sep.length - 1)) (by omega) (by omega)]
      · rw [ih f2 rest (by omega) (by omega)]

/-- The recursion equation of `splitOnL` on a nonempty list. -/
theorem splitOnL_cons (sep : List Char) (c : Char) (rest : List Char) :
    splitOnL sep (c :: rest) =
      if sep ≠ [] ∧ lPre sep (c :: rest) = true then
        [] :: splitOnL sep (rest.drop (sep.length - 1))
      else
        match splitOnL sep rest with
        | [] => [[c]]
        | h :: t => (c :: h) :: t := by
  show splitOnFuel sep (rest.length + 1) (c :: rest) = _
  rw [splitOnFuel]
  have hdl : (rest.drop (sep.length - 1)).length ≤ rest.length := by
    rw [List.length_drop]
    omega
  split
  · rw [splitOnFuel_congr sep rest.length (rest.drop (sep.length - 1)).length
      (rest.drop (sep.length - 1)) (by omega) (by omega)]
    rfl
  · rfl

/-- Joining with a separator, the inverse of `splitOnL`. -/
def joinSep (sep : List Char) : List (List Char) → List Char
  | [] => []
  | [x] => x
  | x :: y :: t => x ++ sep ++ joinSep sep (y :: t)

/-- Build a `String` back from a character list. -/
def strOf (l : List Char) : String := ⟨l⟩

/-- Python `s.split(sep)` on strings. -/
def pySplit (sep s : String) : List String :=
  (splitOnL sep.toList s.toList).map strOf

/-- Python `pat in s` substring containment on strings. -/
def pyContains (pat s : String) : Bool := lContains pat.toList s.toList

/-- Python `s.lower()` (kernel-reducible, unlike `String.toLower`). -/
def pyLower (s : String) : String := strOf (s.toList.map Char.toLower)

/-- `os.path.join(b, n)` for the normal cases used by the tool. -/
def pjoin (b n : String) : String :=
  if b = "" then n
  else if b.toList.getLast? = some '/' then b ++ n
  else b ++ "/" ++ n

/-- Characters after the last `/` (structural, for kernel reduction). -/
def basenameL (l : List Char) : List Char :=
  l.foldl (fun acc c => if c = '/' then [] else acc ++ [c]) []

/-- Characters after the last `.` (the whole list when there is no dot). -/
def afterLastDotL (l : List Char) : List Char :=
  l.foldl (fun acc c => if c = '.' then [] else acc ++ [c]) []

/-- The basename part of `os.path.split(p)`: everything after the last `/`. -/
def pyBasename (p : String) : String :=
  strOf (basenameL p.toList)

/-! ### Lemmas about the string primitives -/

theorem lPre_iff (s l : List Char) : lPre s l = true ↔ s <+: l := by
  induction s generalizing l with
  | nil => simp [lPre]
  | cons a as ih =>
    cases l with
    | nil => simp [lPre]
    | cons b bs =>
      simp [lPre, ih, List.cons_prefix_cons]

theorem lContains_iff (pat l : List Char) :
    lContains pat l = true ↔ ∃ a b, l = a ++ pat ++ b := by
  induction l with
  | nil =>
    simp only [lContains, lPre_iff]
    constructor
    · intro h
      exact ⟨[], [], by simpa using (List.prefix_nil.mp h).symm⟩
    · rintro ⟨a, b, hab⟩
      have h1 : a ++ (pat ++ b) = [] := by rw [← List.append_assoc]; exact hab.symm
      have h2 := List.append_eq_nil.mp (List.append_eq_nil.mp h1).2
      simp [h2.1, lPre]
  | cons c rest ih =>
    simp only [lContains, Bool.or_eq_true, lPre_iff, ih]
    constructor
    · rintro (h | ⟨a, b, hab⟩)
      · obtain ⟨t, ht⟩ := h
        exact ⟨[], t, by simp [ht]⟩
      · exact ⟨c :: a, b, by simp [hab]⟩
    · rintro ⟨a, b, hab⟩
      cases a with
      | nil =>
        left
        exact ⟨b, by simpa using hab.symm⟩
      | cons a0 as =>
        right
        refine ⟨as, b, ?_⟩
        have := hab
        simp only [List.cons_append, List.cons.injEq] at this
        exact this.2

theorem splitOnL_ne_nil (sep l : List Char) : splitOnL sep l ≠ [] := by
  cases l with
  | nil =>
    show ([[]] : List (List Char)) ≠ []
    simp
  | cons c rest =>
    rw [splitOnL_cons]
    split
    · simp
    · rcases h : splitOnL sep rest with _ | ⟨h0, t⟩ <;> simp

theorem joinSep_cons_cons (sep : List Char) (c : Char) (h : List Char)
    (t : List (List Char)) :
    joinSep sep ((c :: h) :: t) = c :: joinSep sep (h :: t) := by
  cases t <;> simp [joinSep]

/-- Splitting and re-joining is the identity: `splitOnL` only removes the
separators between the returned pieces. -/
theorem joinSep_splitOnL (sep : List Char) :
    (l : List Char) → joinSep sep (splitOnL sep l) = l
  | [] => by
    show joinSep sep [[]] = []
    simp [joinSep]
  | c :: rest => by
    rw [splitOnL_cons]
    split
    · next hcut =>
      obtain ⟨hne, hpre⟩ := hcut
      have ih := joinSep_splitOnL sep (rest.drop (sep.length - 1))
      rcases h : splitOnL sep (rest.drop (sep.length - 1)) with _ | ⟨h0, t⟩
      · exact absurd h (splitOnL_ne_nil _ _)
      · rw [h] at ih
        have hjoin : joinSep sep ([] :: h0 :: t) = sep ++ joinSep sep (h0 :: t) := by
          simp [joinSep]
        rw [hjoin, ih]
        obtain ⟨tl, htl⟩ := (lPre_iff _ _).mp hpre
        obtain ⟨k, hk⟩ : ∃ k, sep.length = k + 1 := by
          cases hsep : sep with
          | nil => exact absurd hsep hne
          | cons s0 ss => exact ⟨ss.length, by simp [hsep]⟩
        have hdrop : rest.drop (sep.length - 1) = (c :: rest).drop sep.length := by
          rw [hk]; simp
        rw [hdrop, ← htl]
        simp
    · next hcut =>
      have ih := joinSep_splitOnL sep rest
      rcases h : splitOnL sep rest with _ | ⟨h0, t⟩
      · exact absurd h (splitOnL_ne_nil _ _)
      · rw [h] at ih
        rw [joinSep_cons_cons, ih]
termination_by l => l.length
decreasing_by
  all_goals
    (first
      | (have h := List.length_drop (sep.length - 1) rest
         simp only [List.length_cons]
         omega)
      | (simp only [List.length_cons]; omega))

/-! ## Filesystem model -/

/-- The filesystem as seen by the tool: the set of existing directory paths
and the set of existing file paths. -/
structure FS where
  dirs : List String
  files : List String
deriving DecidableEq

/-- `os.path.exists`: true if the path names an existing directory or file. -/
def pexists (fs : FS) (p : String) : Bool :=
  decide (p ∈ fs.dirs) || decide (p ∈ fs.files)

/-- All ancestor paths of `p` (cut at `/` boundaries), including `p` itself:
the directories `os.makedirs(p)` ensures exist. -/
def pathPrefixes (p : String) : List String :=
  let comps := splitOnL ['/'] p.toList
  (List.range comps.length).map (fun i => strOf (joinSep ['/'] (comps.take (i + 1))))

/-- `os.makedirs(p)`: create `p` and all missing ancestors. -/
def makedirs (p : String) (fs : FS) : FS :=
  { fs with dirs := pathPrefixes p ++ fs.dirs }

theorem self_mem_pathPrefixes (p : String) : p ∈ pathPrefixes p := by
  unfold pathPrefixes
  have hne := splitOnL_ne_nil ['/'] p.toList
  have hlen : 0 < (splitOnL ['/'] p.toList).length := List.length_pos.mpr hne
  refine List.mem_map.mpr ⟨(splitOnL ['/'] p.toList).length - 1, ?_, ?_⟩
  · exact List.mem_range.mpr (by omega)
  · have : (splitOnL ['/'] p.toList).length - 1 + 1 = (splitOnL ['/'] p.toList).length := by
      omega
    rw [this, List.take_length, joinSep_splitOnL]
    rfl

/-! ## Destination resolver: `create_dst_path_for_file` -/

/-- The probed candidate name for collision index `index`:
`base/filename_Kopie(index).ext` with the extension lower-cased. -/
def probeName (base_path filename extension : String) (index : Nat) : String :=
  pjoin base_path (filename ++ "_Kopie(" ++ Nat.repr index ++ ")." ++ pyLower extension)

/-- The collision-probing `while` loop of `create_dst_path_for_file`,
with explicit fuel (the Python loop has no intrinsic bound). -/
def probeLoop (fs : FS) (base_path filename extension : String) :
    Nat → Nat → Option String
  | 0, _ => none
  | fuel + 1, index =>
    if pexists fs (probeName base_path filename extension index) then
      probeLoop fs base_path filename extension fuel (index + 1)
    else some (probeName base_path filename extension index)

/-- The `makedirs`-if-absent step at the top of `create_dst_path_for_file`. -/
def ensureBase (fs : FS) (base_path : String) : FS :=
  if pexists fs base_path then fs else makedirs base_path fs

/-- `create_dst_path_for_file(base_path, filename, extension)`: ensure the
base directory exists, then return `base/filename.ext` (extension lowered),
probing `_Kopie(1)`, `_Kopie(2)`, … on collision.  Returns the filesystem
after the `makedirs` side effect together with the resolved path (`none`
only on fuel exhaustion, where the Python loop would not have returned). -/
def create_dst_path_for_file (fs : FS) (fuel : Nat)
    (base_path filename extension : String) : FS × Option String :=
  (ensureBase fs base_path,
    if pexists (ensureBase fs base_path)
        (pjoin base_path (filename ++ "." ++ pyLower extension)) then
      probeLoop (ensureBase fs base_path) base_path filename extension fuel 1
    else some (pjoin base_path (filename ++ "." ++ pyLower extension)))

theorem probeLoop_spec (fs : FS) (base_path filename extension : String) :
    ∀ (fuel start : Nat),
      (∃ i, start ≤ i ∧ i < start + fuel ∧
        pexists fs (probeName base_path filename extension i) = false) →
      ∃ i0, start ≤ i0 ∧
        probeLoop fs base_path filename extension fuel start =
          some (probeName base_path filename extension i0) ∧
        pexists fs (probeName base_path filename extension i0) = false ∧
        ∀ j, start ≤ j → j < i0 →
          pexists fs (probeName base_path filename extension j) = true := by
  intro fuel
  induction fuel with
  | zero =>
    rintro start ⟨i, h1, h2, _⟩
    omega
  | succ n ih =>
    rintro start ⟨i, hsi, hlt, hfree⟩
    by_cases hp : pexists fs (probeName base_path filename extension start) = true
    · have hne : i ≠ start := by
        intro he; rw [he, hp] at hfree; exact Bool.true_eq_false.mp hfree
      obtain ⟨i0, h1, h2, h3, h4⟩ := ih (start + 1) ⟨i, by omega, by omega, hfree⟩
      refine ⟨i0, by omega, ?_, h3, ?_⟩
      · rw [probeLoop, if_pos hp]; exact h2
      · intro j hj hji
        rcases Nat.eq_or_lt_of_le hj with he | hlt'
        · rw [← he]; exact hp
        · exact h4 j hlt' hji
    · rw [Bool.not_eq_true] at hp
      refine ⟨start, Nat.le_refl _, ?_, hp, ?_⟩
      · rw [probeLoop, if_neg (by simp [hp])]
      · intro j h1 h2; omega

/-- C1: when `base_dir/stem.ext` (extension lower-cased) already exists, the
resolver returns `base_dir/stem_Kopie(i).ext` for the smallest unused index
`i ≥ 1`, probing monotonically from 1 without skipping (every index below the
returned one names an existing path), the returned path does not exist, and
an absent base directory is created together with all its ancestors. -/
theorem create_dst_path_collision_resolution
    (fs : FS) (fuel : Nat) (base_path filename extension : String)
    (hcol : pexists (create_dst_path_for_file fs fuel base_path filename extension).1
        (pjoin base_path (filename ++ "." ++ pyLower extension)) = true)
    (hfree : ∃ i, 1 ≤ i ∧ i < 1 + fuel ∧
        pexists (create_dst_path_for_file fs fuel base_path filename extension).1
          (probeName base_path filename extension i) = false) :
    (∃ i0, 1 ≤ i0 ∧
      (create_dst_path_for_file fs fuel base_path filename extension).2 =
        some (probeName base_path filename extension i0) ∧
      pexists (create_dst_path_for_file fs fuel base_path filename extension).1
        (probeName base_path filename extension i0) = false ∧
      ∀ j, 1 ≤ j → j < i0 →
        pexists (create_dst_path_for_file fs fuel base_path filename extension).1
          (probeName base_path filename extension j) = true) ∧
    (pexists fs base_path = false →
      ∀ q ∈ pathPrefixes base_path,
        q ∈ (create_dst_path_for_file fs fuel base_path filename extension).1.dirs) := by
  have hfst : (create_dst_path_for_file fs fuel base_path filename extension).1 =
      ensureBase fs base_path := rfl
  constructor
  · have hres : (create_dst_path_for_file fs fuel base_path filename extension).2 =
        probeLoop (ensureBase fs base_path) base_path filename extension fuel 1 := by
      show (if pexists (ensureBase fs base_path)
          (pjoin base_path (filename ++ "." ++ pyLower extension)) then
        probeLoop (ensureBase fs base_path) base_path filename extension fuel 1
      else some (pjoin base_path (filename ++ "." ++ pyLower extension))) = _
      rw [hfst] at hcol
      rw [if_pos hcol]
    rw [hfst] at hfree ⊢
    obtain ⟨i0, h1, h2, h3, h4⟩ :=
      probeLoop_spec (ensureBase fs base_path) base_path filename extension fuel 1 hfree
    exact ⟨i0, h1, by rw [hres, h2], h3, h4⟩
  · intro habs q hq
    rw [hfst]
    unfold ensureBase
    rw [if_neg (by simp [habs])]
    unfold makedirs
    exact List.mem_append.mpr (Or.inl hq)

/-- Concrete witness for C1: destination directory `d` already holds
`a.jpg` and `a_Kopie(1).jpg`; resolving `(d, a, JPG)` must probe to index 2. -/
theorem create_dst_path_collision_resolution_witness :
    (∃ i0, 1 ≤ i0 ∧
      (create_dst_path_for_file ⟨["d"], ["d/a.jpg", "d/a_Kopie(1).jpg"]⟩ 5 "d" "a" "JPG").2 =
        some (probeName "d" "a" "JPG" i0) ∧
      pexists (create_dst_path_for_file ⟨["d"], ["d/a.jpg", "d/a_Kopie(1).jpg"]⟩ 5 "d" "a" "JPG").1
        (probeName "d" "a" "JPG" i0) = false ∧
      ∀ j, 1 ≤ j → j < i0 →
        pexists (create_dst_path_for_file ⟨["d"], ["d/a.jpg", "d/a_Kopie(1).jpg"]⟩ 5 "d" "a" "JPG").1
          (probeName "d" "a" "JPG" j) = true) ∧
    (pexists ⟨["d"], ["d/a.jpg", "d/a_Kopie(1).jpg"]⟩ "d" = false →
      ∀ q ∈ pathPrefixes "d",
        q ∈ (create_dst_path_for_file ⟨["d"], ["d/a.jpg", "d/a_Kopie(1).jpg"]⟩ 5 "d" "a" "JPG").1.dirs) :=
  create_dst_path_collision_resolution ⟨["d"], ["d/a.jpg", "d/a_Kopie(1).jpg"]⟩ 5 "d" "a" "JPG"
    (by decide) ⟨2, by decide, by decide, by decide⟩

/-! ## Classifier: `filter_files_with_regex`

The source matches each basename against the regex
`(?P<filename>.*)\.(?P<extension>JPG|jpg|jpeg|PNG|png|tiff|tif|TIF|BMP|bmp)`
with `re.finditer` (no `IGNORECASE`, no anchors), keeps the groups of the
last match, and calls the file an image when both groups are nonempty.
The embedding below implements the backtracking semantics of this regex:
at start `s` the greedy `.*` picks the largest dot position `k` whose tail
starts with one of the literal alternatives, the `.*` region must not cross
a newline, and `finditer` resumes after the end of each match. -/

/-- The literal alternatives of the extension group, in Python alternation
order. -/
def altExts : List (List Char) :=
  ["JPG", "jpg", "jpeg", "PNG", "png", "tiff", "tif", "TIF", "BMP", "bmp"].map
    String.toList

/-- The first alternative matching literally at the front of `x`. -/
def altAt (x : List Char) : Option (List Char) :=
  altExts.find? (fun a => lPre a x)

/-- A hit at index `k` of `b`: `b[k]` is a dot and some alternative matches
right after it (the `\.(…)` tail of the regex succeeds at `k`). -/
def hitAt (b : List Char) (k : Nat) : Option (List Char) :=
  if (b.drop k).head? = some '.' then altAt (b.drop (k + 1)) else none

/-- Whether `b[s..k)` contains a newline — a region `.*` cannot cross. -/
def nlBetween (b : List Char) (s k : Nat) : Bool :=
  ((b.drop s).take (k - s)).any (fun c => c = '\n')

/-- Match attempt at start `s` with the dot at position `k`. -/
def checkAt (b : List Char) (s k : Nat) : Option (List Char) :=
  if nlBetween b s k then none else hitAt b k

/-- Greedy backtracking of `.*` from start `s`: the largest `k ≤ kmax`
admitting a match. -/
def greedyAux (b : List Char) (s : Nat) : Nat → Option (Nat × List Char)
  | 0 => if s = 0 then (checkAt b 0 0).map (fun L => (0, L)) else none
  | k + 1 =>
    if k + 1 < s then none
    else
      match checkAt b s (k + 1) with
      | some L => some (k + 1, L)
      | none => greedyAux b s k

/-- Regex match attempt at start position `s`. -/
def matchFrom (b : List Char) (s : Nat) : Option (Nat × List Char) :=
  greedyAux b s b.length

/-- The scan of the regex engine: leftmost match at a position `≥ s`. -/
def seekFrom (b : List Char) : Nat → Nat → Option (Nat × Nat × List Char)
  | 0, _ => none
  | fuel + 1, s =>
    match matchFrom b s with
    | some (k, L) => some (s, k, L)
    | none => seekFrom b fuel (s + 1)

/-- `re.finditer`, keeping only the groups of the last match — the Python
loop `for match in filename_matches: filename, extension = match.groups()`.
Each match ends at `k + 1 + L.length`, where the next scan resumes. -/
def lastGroups (b : List Char) :
    Nat → Nat → Option (List Char × List Char) → Option (List Char × List Char)
  | 0, _, acc => acc
  | fuel + 1, pos, acc =>
    match seekFrom b (b.length + 1 - pos) pos with
    | none => acc
    | some (s, k, L) =>
      lastGroups b fuel (k + 1 + L.length) (some ((b.drop s).take (k - s), L))

/-- Groups of the last `finditer` match on `b`, if any match exists. -/
def reLastMatch (b : List Char) : Option (List Char × List Char) :=
  lastGroups b (b.length + 1) 0 none

/-- The test `if not filename or not extension` of the Python loop, on the
groups of the last match: accept only when both groups exist and are
nonempty. -/
def groupsAccept : Option (List Char × List Char) → Bool
  | none => false
  | some (fn, ext) => !(fn.isEmpty || ext.isEmpty)

/-- The per-file test of `filter_files_with_regex`: `True` when the file is
put into `imgs` (last match exists and both groups are non-falsy). -/
def classifyOne (file : String) : Bool :=
  groupsAccept (reLastMatch (pyBasename file).toList)

/-- `filter_files_with_regex(files_list)`: split the input into
`(imgs, others)` preserving traversal order. -/
def filter_files_with_regex : List String → List String × List String
  | [] => ([], [])
  | file :: rest =>
    let r := filter_files_with_regex rest
    if classifyOne file then (file :: r.1, r.2) else (r.1, file :: r.2)

/-- The classification rule as the spec words it (for comparison): the
string after the final `.` of the basename, lower-cased, lies in
`{jpg, jpeg, png, tiff, tif, bmp}`. -/
def specImageRule (file : String) : Bool :=
  let b := (pyBasename file).toList
  if b.contains '.' then
    (["jpg", "jpeg", "png", "tiff", "tif", "bmp"].map String.toList).contains
      ((afterLastDotL b).map Char.toLower)
  else false

/-! ### Characterisation of the regex engine embedding -/

theorem checkAt_some_hit {b : List Char} {s k : Nat} {L : List Char}
    (h : checkAt b s k = some L) : hitAt b k = some L := by
  unfold checkAt at h
  split at h
  · exact absurd h (by simp)
  · exact h

theorem hitAt_none_of_ge {b : List Char} {k : Nat} (h : b.length ≤ k) :
    hitAt b k = none := by
  unfold hitAt
  rw [List.drop_eq_nil_of_le h]
  simp

theorem hitAt_some_lt {b : List Char} {k : Nat} {L : List Char}
    (h : hitAt b k = some L) : k < b.length := by
  by_contra hk
  rw [hitAt_none_of_ge (by omega)] at h
  exact absurd h (by simp)

theorem checkAt_of_no_nl {b : List Char} (hb : ∀ c ∈ b, c ≠ '\n')
    (s k : Nat) : checkAt b s k = hitAt b k := by
  unfold checkAt
  have hnl : nlBetween b s k = false := by
    unfold nlBetween
    rw [List.any_eq_false]
    intro c hc
    have hcb : c ∈ b := List.drop_subset s b (List.take_subset _ _ hc)
    simp [hb c hcb]
  rw [hnl]
  simp

theorem greedyAux_some (b : List Char) (s : Nat) :
    ∀ kmax j L, greedyAux b s kmax = some (j, L) →
      s ≤ j ∧ j ≤ kmax ∧ checkAt b s j = some L ∧
      ∀ j2, j < j2 → j2 ≤ kmax → checkAt b s j2 = none := by
  intro kmax
  induction kmax with
  | zero =>
    intro j L h
    rw [greedyAux] at h
    split at h
    · next hs =>
      subst hs
      cases hc : checkAt b 0 0 with
      | none => rw [hc] at h; exact absurd h (by simp)
      | some L0 =>
        rw [hc] at h
        simp only [Option.map_some', Option.some.injEq, Prod.mk.injEq] at h
        obtain ⟨hj, hL⟩ := h
        refine ⟨by omega, by omega, ?_, by omega⟩
        rw [← hj, hc, hL]
    · exact absurd h (by simp)
  | succ k ih =>
    intro j L h
    rw [greedyAux] at h
    split at h
    · exact absurd h (by simp)
    · next hks =>
      cases hc : checkAt b s (k + 1) with
      | some L0 =>
        rw [hc] at h
        simp only [Option.some.injEq, Prod.mk.injEq] at h
        obtain ⟨hj, hL⟩ := h
        subst hj
        refine ⟨by omega, by omega, by rw [hc, hL], by omega⟩
      | none =>
        rw [hc] at h
        obtain ⟨h1, h2, h3, h4⟩ := ih j L h
        refine ⟨h1, by omega, h3, ?_⟩
        intro j2 hj2 hj2k
        rcases Nat.eq_or_lt_of_le hj2k with he | hlt
        · rw [he]; exact hc
        · exact h4 j2 hj2 (by omega)

theorem greedyAux_eq_none (b : List Char) (s : Nat)
    (h : ∀ j, s ≤ j → checkAt b s j = none) :
    ∀ kmax, greedyAux b s kmax = none := by
  intro kmax
  induction kmax with
  | zero =>
    rw [greedyAux]
    split
    · next hs =>
      subst hs
      rw [h 0 (by omega)]
      rfl
    · rfl
  | succ k ih =>
    rw [greedyAux]
    split
    · rfl
    · next hks =>
      rw [h (k + 1) (by omega)]
      exact ih

theorem seekFrom_eq_none (b : List Char)
    (hall : ∀ s2, matchFrom b s2 = none) :
    ∀ fuel s, seekFrom b fuel s = none := by
  intro fuel
  induction fuel with
  | zero => intro s; rfl
  | succ n ih =>
    intro s
    rw [seekFrom, hall s]
    exact ih (s + 1)

theorem seekFrom_eq_none_from (b : List Char) (p : Nat)
    (hall : ∀ s2, p ≤ s2 → matchFrom b s2 = none) :
    ∀ fuel s, p ≤ s → seekFrom b fuel s = none := by
  intro fuel
  induction fuel with
  | zero => intro s _; rfl
  | succ n ih =>
    intro s hs
    rw [seekFrom, hall s hs]
    exact ih (s + 1) (by omega)

theorem lastGroups_succ (b : List Char) (fuel pos : Nat)
    (acc : Option (List Char × List Char)) :
    lastGroups b (fuel + 1) pos acc =
      match seekFrom b (b.length + 1 - pos) pos with
      | none => acc
      | some (s, k, L) =>
        lastGroups b fuel (k + 1 + L.length) (some ((b.drop s).take (k - s), L)) :=
  rfl

theorem lastGroups_step_none (b : List Char) (fuel pos : Nat)
    (acc : Option (List Char × List Char))
    (h : seekFrom b (b.length + 1 - pos) pos = none) :
    lastGroups b (fuel + 1) pos acc = acc := by
  rw [lastGroups_succ, h]

theorem lastGroups_step_some (b : List Char) (fuel pos : Nat)
    (acc : Option (List Char × List Char)) (s k : Nat) (L : List Char)
    (h : seekFrom b (b.length + 1 - pos) pos = some (s, k, L)) :
    lastGroups b (fuel + 1) pos acc =
      lastGroups b fuel (k + 1 + L.length) (some ((b.drop s).take (k - s), L)) := by
  rw [lastGroups_succ, h]

/-- When no start position admits a match, `finditer` yields nothing. -/
theorem reLastMatch_eq_none (b : List Char)
    (hall : ∀ s, matchFrom b s = none) :
    reLastMatch b = none := by
  unfold reLastMatch
  rw [lastGroups_step_none]
  exact seekFrom_eq_none b hall _ _

/-- When position 0 matches with dot position `k` and nothing matches at or
after `k + 1`, the single `finditer` match has groups `(b.take k, L)`. -/
theorem reLastMatch_single (b : List Char) (k : Nat) (L : List Char)
    (hk : matchFrom b 0 = some (k, L))
    (hafter : ∀ s, k + 1 ≤ s → matchFrom b s = none) :
    reLastMatch b = some (b.take k, L) := by
  have hck : checkAt b 0 k = some L := (greedyAux_some b 0 b.length k L hk).2.2.1
  have hklen : k < b.length := hitAt_some_lt (checkAt_some_hit hck)
  unfold reLastMatch
  have hseek1 : seekFrom b (b.length + 1 - 0) 0 = some (0, k, L) := by
    have h0 : b.length + 1 - 0 = b.length + 1 := by omega
    rw [h0, seekFrom, hk]
  rw [lastGroups_step_some b b.length 0 none 0 k L hseek1]
  obtain ⟨m, hm⟩ : ∃ m, b.length = m + 1 := ⟨b.length - 1, by omega⟩
  rw [hm, lastGroups_step_none]
  · simp
  · exact seekFrom_eq_none_from b (k + 1) hafter _ _ (by omega)

theorem altExts_ne_nil : ∀ a ∈ altExts, a ≠ [] := by decide

theorem groupsAccept_some (fn ext : List Char) :
    groupsAccept (some (fn, ext)) = true ↔ fn ≠ [] ∧ ext ≠ [] := by
  simp [groupsAccept]

theorem checkAt_none_of_hit_none {b : List Char} {k : Nat}
    (h : hitAt b k = none) (s : Nat) : checkAt b s k = none := by
  unfold checkAt
  split <;> simp [h]

theorem greedyAux_none_imp (b : List Char) (s : Nat) :
    ∀ kmax, greedyAux b s kmax = none →
      ∀ j, s ≤ j → j ≤ kmax → checkAt b s j = none := by
  intro kmax
  induction kmax with
  | zero =>
    intro h j h1 h2
    rw [greedyAux] at h
    have hj : j = 0 := by omega
    have hs : s = 0 := by omega
    subst hj
    rw [hs] at h ⊢
    rw [if_pos rfl] at h
    cases hc : checkAt b 0 0 with
    | none => rfl
    | some L => rw [hc] at h; exact absurd h (by simp)
  | succ k ih =>
    intro h j h1 h2
    rw [greedyAux] at h
    split at h
    · omega
    · next hks =>
      cases hc : checkAt b s (k + 1) with
      | some L => rw [hc] at h; exact absurd h (by simp)
      | none =>
        rw [hc] at h
        rcases Nat.eq_or_lt_of_le h2 with he | hlt
        · rw [he]; exact hc
        · exact ih h j h1 (by omega)

theorem hitAt_some_parts {b : List Char} {k : Nat} {L : List Char}
    (h : hitAt b k = some L) :
    b.drop k = '.' :: b.drop (k + 1) ∧ L ∈ altExts ∧ L <+: b.drop (k + 1) := by
  unfold hitAt altAt at h
  split at h
  · next hd =>
    have hfs := @List.find?_some (List Char) (fun a => lPre a (List.drop (k + 1) b)) L altExts h
    refine ⟨?_, List.mem_of_find?_eq_some h, (lPre_iff _ _).mp hfs⟩
    cases hdk : b.drop k with
    | nil => rw [hdk] at hd; exact absurd hd (by simp)
    | cons c t =>
      rw [hdk] at hd
      simp only [List.head?_cons, Option.some.injEq] at hd
      have ht : b.drop (k + 1) = t := by
        have hdd : b.drop (k + 1) = (b.drop k).drop 1 := by
          rw [List.drop_drop]
        rw [hdd, hdk]
        rfl
      rw [ht, hd]
  · exact absurd h (by simp)

theorem hitAt_of_parts (u v w : List Char) (hv : v ∈ altExts) :
    (hitAt (u ++ '.' :: (v ++ w)) u.length).isSome := by
  unfold hitAt
  have hdrop : (u ++ '.' :: (v ++ w)).drop u.length = '.' :: (v ++ w) :=
    List.drop_left u _
  have hdrop1 : (u ++ '.' :: (v ++ w)).drop (u.length + 1) = v ++ w := by
    have : (u ++ '.' :: (v ++ w)).drop (u.length + 1) =
        ((u ++ '.' :: (v ++ w)).drop u.length).drop 1 := by rw [List.drop_drop]
    rw [this, hdrop]
    rfl
  rw [hdrop, hdrop1]
  rw [if_pos (by simp)]
  unfold altAt
  rw [List.find?_isSome]
  exact ⟨v, hv, (lPre_iff _ _).mpr (List.prefix_append v w)⟩

/-- A hit with a nonempty stem is exactly a decomposition
`b = u ++ "." ++ v ++ tail` with `u` nonempty and `v` a literal alternative. -/
theorem hit_iff_decomp (b : List Char) :
    (∃ k, 1 ≤ k ∧ (hitAt b k).isSome) ↔
      ∃ u v w, b = u ++ '.' :: (v ++ w) ∧ u ≠ [] ∧ v ∈ altExts := by
  constructor
  · rintro ⟨k, hk1, hsome⟩
    obtain ⟨L, hL⟩ := Option.isSome_iff_exists.mp hsome
    obtain ⟨hdk, hmem, hpre⟩ := hitAt_some_parts hL
    obtain ⟨w, hw⟩ := hpre
    have hklen : k < b.length := hitAt_some_lt hL
    refine ⟨b.take k, L, w, ?_, ?_, hmem⟩
    · conv_lhs => rw [← List.take_append_drop k b]
      rw [hdk, ← hw]
    · intro hnil
      have := congrArg List.length hnil
      simp only [List.length_take, List.length_nil] at this
      omega
  · rintro ⟨u, v, w, hb, hu, hv⟩
    refine ⟨u.length, ?_, ?_⟩
    · have : u.length ≠ 0 := fun h0 => hu (List.length_eq_zero.mp h0)
      omega
    · rw [hb]
      exact hitAt_of_parts u v w hv

/-- For a basename without newlines, the Python loop accepts the file as an
image exactly when some dot position with a nonempty stem admits an
alternative: the greedy `.*` takes the largest such position, `finditer`
finds no later match, and the filename group is the (nonempty) stem. -/
theorem classifyTrue_iff_hit (b : List Char) (hnl : ∀ c ∈ b, c ≠ '\n') :
    groupsAccept (reLastMatch b) = true ↔ ∃ k, 1 ≤ k ∧ (hitAt b k).isSome := by
  by_cases hex : ∃ k, (hitAt b k).isSome
  · have hm0 : ∃ k L, matchFrom b 0 = some (k, L) := by
      cases hm : matchFrom b 0 with
      | some kl =>
        obtain ⟨k0, L0⟩ := kl
        exact ⟨k0, L0, rfl⟩
      | none =>
        exfalso
        obtain ⟨k, hk⟩ := hex
        obtain ⟨L, hL⟩ := Option.isSome_iff_exists.mp hk
        have hklen : k < b.length := hitAt_some_lt hL
        have := greedyAux_none_imp b 0 b.length hm k (by omega) (by omega)
        rw [checkAt_of_no_nl hnl, hL] at this
        exact absurd this (by simp)
    obtain ⟨kstar, Lstar, hmeq⟩ := hm0
    obtain ⟨_, hklen', hcheck, hmax⟩ := greedyAux_some b 0 b.length kstar Lstar hmeq
    have hhit : hitAt b kstar = some Lstar := checkAt_some_hit hcheck
    have hkstarlen : kstar < b.length := hitAt_some_lt hhit
    have hmaxhit : ∀ j, kstar < j → hitAt b j = none := by
      intro j hj
      by_cases hjl : j ≤ b.length
      · have h := hmax j hj hjl
        rwa [checkAt_of_no_nl hnl] at h
      · exact hitAt_none_of_ge (by omega)
    have hafter : ∀ s, kstar + 1 ≤ s → matchFrom b s = none := by
      intro s hs
      cases hm2 : matchFrom b s with
      | none => rfl
      | some jl =>
        exfalso
        obtain ⟨j2, L2⟩ := jl
        obtain ⟨hsj, _, hch, _⟩ := greedyAux_some b s b.length j2 L2 hm2
        have hj2 : hitAt b j2 = some L2 := checkAt_some_hit hch
        rw [hmaxhit j2 (by omega)] at hj2
        exact absurd hj2 (by simp)
    rw [reLastMatch_single b kstar Lstar hmeq hafter]
    have hLne : Lstar ≠ [] := altExts_ne_nil Lstar (hitAt_some_parts hhit).2.1
    rw [groupsAccept_some]
    constructor
    · rintro ⟨htk, _⟩
      have hk1 : 1 ≤ kstar := by
        by_contra hk0
        have hz : kstar = 0 := by omega
        rw [hz] at htk
        exact htk (List.take_zero b)
      exact ⟨kstar, hk1, by rw [hhit]; rfl⟩
    · rintro ⟨k, hk1, hksome⟩
      refine ⟨?_, hLne⟩
      have hkk : k ≤ kstar := by
        by_contra hgt
        rw [hmaxhit k (by omega)] at hksome
        exact absurd hksome (by simp)
      rw [Ne, List.take_eq_nil_iff]
      push_neg
      constructor
      · omega
      · intro hbnil
        rw [hbnil] at hkstarlen
        simp at hkstarlen
  · push_neg at hex
    have hallhit : ∀ k, hitAt b k = none := by
      intro k
      have := hex k
      cases hk : hitAt b k with
      | none => rfl
      | some L =>
        exfalso
        rw [hk] at this
        exact this rfl
    have hallmatch : ∀ s, matchFrom b s = none := by
      intro s
      exact greedyAux_eq_none b s (fun j _ => checkAt_none_of_hit_none (hallhit j) s) b.length
    rw [reLastMatch_eq_none b hallmatch]
    constructor
    · intro h
      exact absurd h (by simp [groupsAccept])
    · rintro ⟨k, _, hksome⟩
      rw [hallhit k] at hksome
      exact absurd hksome (by simp)

theorem classifyOne_iff (file : String)
    (hnl : ∀ c ∈ (pyBasename file).toList, c ≠ '\n') :
    classifyOne file = true ↔
      ∃ u v w, (pyBasename file).toList = u ++ '.' :: (v ++ w) ∧
        u ≠ [] ∧ v ∈ altExts := by
  rw [classifyOne, classifyTrue_iff_hit _ hnl, hit_iff_decomp]

theorem filter_files_eq_filter (files : List String) :
    filter_files_with_regex files =
      (files.filter (fun f => classifyOne f),
       files.filter (fun f => !classifyOne f)) := by
  induction files with
  | nil => rfl
  | cons f rest ih =>
    rw [filter_files_with_regex, ih]
    by_cases h : classifyOne f
    · simp [List.filter_cons, h]
    · simp [List.filter_cons, h]

theorem filter_files_length_split (files : List String) :
    (filter_files_with_regex files).1.length +
      (filter_files_with_regex files).2.length = files.length := by
  induction files with
  | nil => rfl
  | cons f rest ih =>
    rw [filter_files_with_regex]
    by_cases h : classifyOne f
    · simp only [h, if_true, List.length_cons]
      omega
    · simp only [h, if_false, Bool.false_eq_true, List.length_cons]
      omega

/-- C2 (amended): the classifier partitions the input
(`len(images) + len(others) == len(input)`) purely by basename string
matching, and — for basenames without newline characters — a path lands in
`images` exactly when its basename decomposes as `u ++ "." ++ v ++ w` with a
nonempty `u` and `v` one of the literals JPG, jpg, jpeg, PNG, png, tiff,
tif, TIF, BMP, bmp (the regex is case-sensitive, matches the alternatives as
prefixes, and is not anchored to the end of the name). -/
theorem filter_files_with_regex_partition (files : List String)
    (hnl : ∀ f ∈ files, ∀ c ∈ (pyBasename f).toList, c ≠ '\n') :
    (filter_files_with_regex files).1.length +
        (filter_files_with_regex files).2.length = files.length ∧
    ∀ f ∈ files,
      (f ∈ (filter_files_with_regex files).1 ↔
        ∃ u v w, (pyBasename f).toList = u ++ '.' :: (v ++ w) ∧
          u ≠ [] ∧ v ∈ altExts) ∧
      (f ∈ (filter_files_with_regex files).2 ↔
        ¬∃ u v w, (pyBasename f).toList = u ++ '.' :: (v ++ w) ∧
          u ≠ [] ∧ v ∈ altExts) := by
  refine ⟨filter_files_length_split files, ?_⟩
  intro f hf
  have hiff := classifyOne_iff f (hnl f hf)
  rw [filter_files_eq_filter]
  constructor
  · simp only [List.mem_filter]
    constructor
    · rintro ⟨_, hc⟩
      exact hiff.mp hc
    · intro hd
      exact ⟨hf, hiff.mpr hd⟩
  · simp only [List.mem_filter, Bool.not_eq_true']
    constructor
    · rintro ⟨_, hc⟩
      intro hd
      rw [hiff.mpr hd] at hc
      cases hc
    · intro hd
      refine ⟨hf, ?_⟩
      cases hc : classifyOne f with
      | false => rfl
      | true => exact absurd (hiff.mp hc) hd

/-- Concrete instantiation of the amended C2 on `["dir/photo.jpg", "doc.pdf"]`. -/
theorem filter_files_with_regex_partition_witness :
    (filter_files_with_regex ["dir/photo.jpg", "doc.pdf"]).1.length +
        (filter_files_with_regex ["dir/photo.jpg", "doc.pdf"]).2.length = 2 ∧
    ∀ f ∈ ["dir/photo.jpg", "doc.pdf"],
      (f ∈ (filter_files_with_regex ["dir/photo.jpg", "doc.pdf"]).1 ↔
        ∃ u v w, (pyBasename f).toList = u ++ '.' :: (v ++ w) ∧
          u ≠ [] ∧ v ∈ altExts) ∧
      (f ∈ (filter_files_with_regex ["dir/photo.jpg", "doc.pdf"]).2 ↔
        ¬∃ u v w, (pyBasename f).toList = u ++ '.' :: (v ++ w) ∧
          u ≠ [] ∧ v ∈ altExts) :=
  filter_files_with_regex_partition ["dir/photo.jpg", "doc.pdf"] (by decide)

/-- C2 counterexample: `photo.JPEG` has final extension `JPEG`, which
lower-cases to `jpeg`, a member of the allowed set — the claim says it is an
image — yet the (case-sensitive) code classifies it as other. -/
theorem filter_files_with_regex_not_case_insensitive :
    specImageRule "photo.JPEG" = true ∧
    filter_files_with_regex ["photo.JPEG"] = ([], ["photo.JPEG"]) := by
  constructor
  · rfl
  · rfl

/-! ### C10: empty-stem dotfiles -/

theorem basenameL_no_slash_aux (l : List Char) (hs : ∀ c ∈ l, c ≠ '/') :
    ∀ acc, l.foldl (fun acc c => if c = '/' then [] else acc ++ [c]) acc = acc ++ l := by
  induction l with
  | nil => intro acc; simp
  | cons c rest ih =>
    intro acc
    have hc : c ≠ '/' := hs c (by simp)
    rw [List.foldl_cons, if_neg hc]
    rw [ih (fun x hx => hs x (by simp [hx])) (acc ++ [c])]
    simp

theorem basenameL_no_slash (l : List Char) (hs : ∀ c ∈ l, c ≠ '/') :
    basenameL l = l := by
  unfold basenameL
  rw [basenameL_no_slash_aux l hs []]
  rfl

theorem greedyAux_only_zero (b : List Char)
    (hz : ∀ j, 1 ≤ j → checkAt b 0 j = none) :
    ∀ kmax, greedyAux b 0 kmax = (checkAt b 0 0).map (fun L => (0, L)) := by
  intro kmax
  induction kmax with
  | zero => rw [greedyAux, if_pos rfl]
  | succ k ih =>
    rw [greedyAux, if_neg (by omega), hz (k + 1) (by omega)]
    exact ih

/-- C10: a filename `"." ++ e` whose stem (the part before the extension
dot) is empty is always classified as other, whatever the extension `e`
(dot-free, slash-free) is — in particular also when `e` is in the allowed
image-extension set: the regex matches with an empty filename group, which
the Python falsy test rejects. -/
theorem dotfile_always_other (e : String)
    (hdot : ∀ c ∈ e.toList, c ≠ '.') (hslash : ∀ c ∈ e.toList, c ≠ '/') :
    filter_files_with_regex [strOf ('.' :: e.toList)] =
      ([], [strOf ('.' :: e.toList)]) := by
  set b : List Char := '.' :: e.toList with hbdef
  have hns : ∀ c ∈ b, c ≠ '/' := by
    intro c hc
    rcases List.mem_cons.mp hc with he | he
    · rw [he]; decide
    · exact hslash c he
  have hbase : (pyBasename (strOf b)).toList = b := by
    show (strOf (basenameL (strOf b).toList)).toList = b
    have h1 : (strOf b).toList = b := rfl
    rw [h1, basenameL_no_slash b hns, h1]
  have hhit1 : ∀ k, 1 ≤ k → hitAt b k = none := by
    intro k hk
    unfold hitAt
    cases hdk : b.drop k with
    | nil => simp
    | cons c t =>
      have hcmem : c ∈ b.drop k := by rw [hdk]; simp
      have hce : c ∈ e.toList := by
        obtain ⟨m, hm⟩ : ∃ m, k = m + 1 := ⟨k - 1, by omega⟩
        rw [hm] at hcmem
        rw [hbdef] at hcmem
        rw [List.drop_succ_cons] at hcmem
        exact List.drop_subset m e.toList hcmem
      have hcne : c ≠ '.' := hdot c hce
      rw [if_neg (by simp [hcne])]
  have hcheck1 : ∀ s j, 1 ≤ j → checkAt b s j = none := by
    intro s j hj
    exact checkAt_none_of_hit_none (hhit1 j hj) s
  have hclass : classifyOne (strOf b) = false := by
    rw [classifyOne, hbase]
    have hmpos : ∀ s, 1 ≤ s → matchFrom b s = none := by
      intro s hs
      exact greedyAux_eq_none b s (fun j hj => hcheck1 s j (by omega)) b.length
    have hchk0 : checkAt b 0 0 = hitAt b 0 := by
      unfold checkAt nlBetween
      simp
    cases half : altAt e.toList with
    | none =>
      have hallhit : ∀ k, hitAt b k = none := by
        intro k
        cases k with
        | zero =>
          unfold hitAt
          rw [if_pos (by rw [hbdef]; rfl)]
          have : b.drop 1 = e.toList := by rw [hbdef]; rfl
          rw [this, half]
        | succ m => exact hhit1 (m + 1) (by omega)
      have hallm : ∀ s, matchFrom b s = none := fun s =>
        greedyAux_eq_none b s
          (fun j _ => checkAt_none_of_hit_none (hallhit j) s) b.length
      rw [reLastMatch_eq_none b hallm]
      rfl
    | some L =>
      have hhit0 : hitAt b 0 = some L := by
        unfold hitAt
        rw [if_pos (by rw [hbdef]; rfl)]
        have : b.drop 1 = e.toList := by rw [hbdef]; rfl
        rw [this, half]
      have hm0 : matchFrom b 0 = some (0, L) := by
        show greedyAux b 0 b.length = some (0, L)
        rw [greedyAux_only_zero b (hcheck1 0) b.length, hchk0, hhit0]
        rfl
      rw [reLastMatch_single b 0 L hm0 (fun s hs => hmpos s (by omega))]
      rfl
  rw [filter_files_with_regex, hclass]
  rfl

/-- Concrete instantiation of C10 at the dotfile `.jpg`. -/
theorem dotfile_always_other_witness :
    filter_files_with_regex [strOf ('.' :: "jpg".toList)] =
      ([], [strOf ('.' :: "jpg".toList)]) :=
  dotfile_always_other "jpg" (by decide) (by decide)

/-! ## EXIF extraction and image moving:
`extract_exif_from_image_and_move_to_dest_folder` -/

/-- A parsed `DateTime` EXIF value. -/
structure DT where
  y : Nat
  m : Nat
  d : Nat
  hh : Nat
  mi : Nat
  ss : Nat
deriving DecidableEq

def isLeap (y : Nat) : Bool := (y % 4 == 0 && y % 100 != 0) || y % 400 == 0

def daysInMonth (y m : Nat) : Nat :=
  if m = 2 then (if isLeap y then 29 else 28)
  else if m = 4 ∨ m = 6 ∨ m = 9 ∨ m = 11 then 30
  else 31

def digitsVal (l : List Char) : Nat :=
  l.foldl (fun acc c => acc * 10 + (c.toNat - 48)) 0

/-- A numeric `strptime` field: 1 to `maxLen` digits. -/
def numField (l : List Char) (maxLen : Nat) : Option Nat :=
  if l ≠ [] ∧ l.length ≤ maxLen ∧ l.all (fun c => c.isDigit) then
    some (digitsVal l)
  else none

/-- `datetime.strptime(s, "%Y:%m:%d %H:%M:%S")`, including the range and
calendar validation `datetime` performs; `none` models `ValueError`. -/
def strptimeDT (s : String) : Option DT :=
  match splitOnL [' '] s.toList with
  | [dpart, tpart] =>
    (match splitOnL [':'] dpart, splitOnL [':'] tpart with
    | [ys, ms, ds], [hs, mins, ss] =>
      (match numField ys 4, numField ms 2, numField ds 2,
            numField hs 2, numField mins 2, numField ss 2 with
      | some y, some m, some d, some hh, some mi, some sec =>
        if 1 ≤ y ∧ 1 ≤ m ∧ m ≤ 12 ∧ 1 ≤ d ∧ d ≤ daysInMonth y m ∧
            hh ≤ 23 ∧ mi ≤ 59 ∧ sec ≤ 59 then
          some ⟨y, m, d, hh, mi, sec⟩
        else none
      | _, _, _, _, _, _ => none)
    | _, _ => none)
  | _ => none

/-- Zero-pad to two digits: `%m`, `%d`, `%H`, `%M`, `%S`. -/
def fmt2 (n : Nat) : String := if n < 10 then "0" ++ Nat.repr n else Nat.repr n

/-- `%Y` (no extra padding; identical to the claim's `YYYY` for four-digit
years). -/
def fmtY (n : Nat) : String := Nat.repr n

/-- `image_time.strftime("%Y")`. -/
def yearStr (t : DT) : String := fmtY t.y

/-- `image_time.strftime("%Y_%m")`. -/
def yearMonthStr (t : DT) : String := fmtY t.y ++ "_" ++ fmt2 t.m

/-- `f"IMG_{image_time.strftime('%Y%m%d')}_{image_time.strftime('%H%M%S')}"`. -/
def imgStem (t : DT) : String :=
  "IMG_" ++ fmtY t.y ++ fmt2 t.m ++ fmt2 t.d ++ "_" ++
    fmt2 t.hh ++ fmt2 t.mi ++ fmt2 t.ss

/-- What `PIL.Image.open` yields for a path: the `DateTime` entry of the
EXIF mapping (when the mapping is iterable and the tag present) and the
detected `image.format`. -/
structure ImgData where
  dateTime : Option String
  format : String
deriving DecidableEq

/-- Oracles for the external collaborators, fixed per run: what opening
each path yields (`none` = `Image.open` raises) and whether `shutil.move`
from a source to a destination succeeds. -/
structure Oracles where
  openImage : String → Option ImgData
  moveOk : String → String → Bool

/-- Aggregate state of the image-moving loop. `imageBound` tracks whether
the Python variable `image` has ever been assigned (it is referenced by the
`except` handler). -/
structure MoveState where
  fs : FS
  imageBound : Bool
  success_list : List String
  copy_list : List String
  problem_list : List String

/-- The tail of one loop iteration: resolve the destination path and
attempt the move, appending to the success/copy or problem lists. -/
def moveStep (orc : Oracles) (fuel : Nat) (st : MoveState) (bound : Bool)
    (image_path filename extension base_path : String) :
    Except String MoveState :=
  match create_dst_path_for_file st.fs fuel base_path filename extension with
  | (_, none) => Except.error "create_dst_path_for_file: probe fuel exhausted"
  | (fs1, some dst_path) =>
    if orc.moveOk image_path dst_path then
      Except.ok
        { fs := { fs1 with files := dst_path :: fs1.files.erase image_path },
          imageBound := bound,
          success_list := st.success_list ++ [dst_path],
          copy_list :=
            if pyContains "Kopie" dst_path then st.copy_list ++ [dst_path]
            else st.copy_list,
          problem_list := st.problem_list }
    else
      Except.ok
        { fs := fs1, imageBound := bound,
          success_list := st.success_list,
          copy_list := st.copy_list,
          problem_list := st.problem_list ++ [image_path] }

/-- One iteration of the loop of
`extract_exif_from_image_and_move_to_dest_folder`.  `Except.error` models
an exception escaping the loop body and aborting the whole batch: the
`NameError` raised by the handler's `image.close()` when `image` was never
assigned (first file failing to open), or the `IndexError` of
`filename_full.split('.')[1]` on a basename without a dot. -/
def processImage (orc : Oracles) (output_folder : String)
    (include_year : Bool) (fuel : Nat) (st : MoveState) (image_path : String) :
    Except String MoveState :=
  let opened := orc.openImage image_path
  let parsed : Option (DT × String) :=
    match opened with
    | none => none
    | some d =>
      match d.dateTime with
      | none => none
      | some s =>
        match strptimeDT s with
        | none => none
        | some t => some (t, d.format)
  let bound := st.imageBound || opened.isSome
  match parsed with
  | some (t, fmtStr) =>
    let base_path :=
      if include_year then
        pjoin (pjoin output_folder (yearStr t)) (yearMonthStr t)
      else pjoin output_folder (yearMonthStr t)
    moveStep orc fuel st bound image_path (imgStem t) (pyLower fmtStr) base_path
  | none =>
    if opened.isNone && !st.imageBound then
      Except.error "NameError: name image is not defined"
    else
      match pySplit "." (pyBasename image_path) with
      | f0 :: f1 :: _ =>
        moveStep orc fuel st bound image_path f0 f1
          (pjoin output_folder "No_exif_data")
      | _ => Except.error "IndexError: list index out of range"

/-- `extract_exif_from_image_and_move_to_dest_folder(imgs, config)`: fold
the per-image processing over the input list, starting from empty outcome
lists; any per-file exception aborts the whole batch. -/
def extract_exif_from_image_and_move_to_dest_folder (orc : Oracles)
    (fuel : Nat) (imgs : List String) (output_folder : String)
    (include_year : Bool) (fs : FS) : Except String MoveState :=
  imgs.foldlM (processImage orc output_folder include_year fuel)
    { fs := fs, imageBound := false,
      success_list := [], copy_list := [], problem_list := [] }

theorem char_toLower_idem (c : Char) : c.toLower.toLower = c.toLower := by
  by_cases h : c.toNat ≥ 65 ∧ c.toNat ≤ 90
  · have hv : (c.toNat + 32).isValidChar := Or.inl (by omega)
    have h1 : c.toLower = Char.ofNat (c.toNat + 32) := by
      simp only [Char.toLower]
      rw [if_pos h]
    have ht : (Char.ofNat (c.toNat + 32)).toNat = c.toNat + 32 := by
      unfold Char.ofNat
      rw [dif_pos hv]
      rfl
    rw [h1]
    simp only [Char.toLower]
    rw [ht, if_neg (by omega)]
  · have h1 : c.toLower = c := by
      simp only [Char.toLower]
      rw [if_neg h]
    rw [h1, h1]

theorem pyLower_idem (s : String) : pyLower (pyLower s) = pyLower s := by
  unfold pyLower
  have h1 : (strOf (s.toList.map Char.toLower)).toList = s.toList.map Char.toLower := rfl
  rw [h1, List.map_map]
  congr 1
  apply List.map_congr_left
  intro a _
  exact char_toLower_idem a

/-- C6: an image whose `DateTime` tag parses as `Y:M:D H:M:S`, processed
with `include_year = true`, is moved — absent any collision at the target
and with the move succeeding — to
`destination/{year}/{year_month}/IMG_YYYYMMDD_HHMMSS.ext`, where the
extension is the image's detected format, lower-cased. -/
theorem image_with_exif_destination
    (orc : Oracles) (fuel : Nat) (img output_folder : String) (fs : FS)
    (s fmtStr : String) (t : DT)
    (hopen : orc.openImage img = some ⟨some s, fmtStr⟩)
    (hparse : strptimeDT s = some t)
    (hnocol : pexists
        (ensureBase fs (pjoin (pjoin output_folder (yearStr t)) (yearMonthStr t)))
        (pjoin (pjoin (pjoin output_folder (yearStr t)) (yearMonthStr t))
          (imgStem t ++ "." ++ pyLower fmtStr)) = false)
    (hmove : orc.moveOk img
        (pjoin (pjoin (pjoin output_folder (yearStr t)) (yearMonthStr t))
          (imgStem t ++ "." ++ pyLower fmtStr)) = true) :
    ∃ st, extract_exif_from_image_and_move_to_dest_folder orc fuel [img]
        output_folder true fs = Except.ok st ∧
      st.success_list =
        [pjoin (pjoin (pjoin output_folder (yearStr t)) (yearMonthStr t))
          (imgStem t ++ "." ++ pyLower fmtStr)] ∧
      st.problem_list = [] := by
  have hstep : processImage orc output_folder true fuel
      ⟨fs, false, [], [], []⟩ img =
      moveStep orc fuel ⟨fs, false, [], [], []⟩ true img (imgStem t)
        (pyLower fmtStr)
        (pjoin (pjoin output_folder (yearStr t)) (yearMonthStr t)) := by
    unfold processImage
    rw [hopen]
    simp only [hparse, Option.isSome_some, Bool.or_true, if_true]
  have hdst : create_dst_path_for_file fs fuel
      (pjoin (pjoin output_folder (yearStr t)) (yearMonthStr t)) (imgStem t)
      (pyLower fmtStr) =
      (ensureBase fs (pjoin (pjoin output_folder (yearStr t)) (yearMonthStr t)),
       some (pjoin (pjoin (pjoin output_folder (yearStr t)) (yearMonthStr t))
         (imgStem t ++ "." ++ pyLower fmtStr))) := by
    unfold create_dst_path_for_file
    rw [pyLower_idem, hnocol]
    rfl
  have hms : moveStep orc fuel ⟨fs, false, [], [], []⟩ true img (imgStem t)
      (pyLower fmtStr)
      (pjoin (pjoin output_folder (yearStr t)) (yearMonthStr t)) =
      Except.ok
        { fs := { ensureBase fs
            (pjoin (pjoin output_folder (yearStr t)) (yearMonthStr t)) with
            files := (pjoin (pjoin (pjoin output_folder (yearStr t))
                (yearMonthStr t)) (imgStem t ++ "." ++ pyLower fmtStr)) ::
              (ensureBase fs (pjoin (pjoin output_folder (yearStr t))
                (yearMonthStr t))).files.erase img },
          imageBound := true,
          success_list :=
            [pjoin (pjoin (pjoin output_folder (yearStr t)) (yearMonthStr t))
              (imgStem t ++ "." ++ pyLower fmtStr)],
          copy_list :=
            if pyContains "Kopie"
                (pjoin (pjoin (pjoin output_folder (yearStr t)) (yearMonthStr t))
                  (imgStem t ++ "." ++ pyLower fmtStr)) then
              [pjoin (pjoin (pjoin output_folder (yearStr t)) (yearMonthStr t))
                (imgStem t ++ "." ++ pyLower fmtStr)]
            else [],
          problem_list := [] } := by
    unfold moveStep
    rw [hdst]
    simp only [hmove, if_true, List.nil_append]
  have hall : extract_exif_from_image_and_move_to_dest_folder orc fuel [img]
      output_folder true fs =
      Except.ok
        { fs := { ensureBase fs
            (pjoin (pjoin output_folder (yearStr t)) (yearMonthStr t)) with
            files := (pjoin (pjoin (pjoin output_folder (yearStr t))
                (yearMonthStr t)) (imgStem t ++ "." ++ pyLower fmtStr)) ::
              (ensureBase fs (pjoin (pjoin output_folder (yearStr t))
                (yearMonthStr t))).files.erase img },
          imageBound := true,
          success_list :=
            [pjoin (pjoin (pjoin output_folder (yearStr t)) (yearMonthStr t))
              (imgStem t ++ "." ++ pyLower fmtStr)],
          copy_list :=
            if pyContains "Kopie"
                (pjoin (pjoin (pjoin output_folder (yearStr t)) (yearMonthStr t))
                  (imgStem t ++ "." ++ pyLower fmtStr)) then
              [pjoin (pjoin (pjoin output_folder (yearStr t)) (yearMonthStr t))
                (imgStem t ++ "." ++ pyLower fmtStr)]
            else [],
          problem_list := [] } := by
    show List.foldlM (processImage orc output_folder true fuel)
      ⟨fs, false, [], [], []⟩ [img] = _
    rw [List.foldlM_cons, hstep, hms]
    rfl
  exact ⟨_, hall, rfl, rfl⟩

/-- Oracle for the C6 scenario: `src/photo.jpg` opens with DateTime
`2021:05:03 10:15:00` and detected format `JPG`; all moves succeed. -/
def exifScenario : Oracles :=
  { openImage := fun p =>
      if p = "src/photo.jpg" then some ⟨some "2021:05:03 10:15:00", "JPG"⟩
      else none,
    moveOk := fun _ _ => true }

/-- Concrete instantiation of C6: the spec's scenario lands at
`dest/2021/2021_05/IMG_20210503_101500.jpg`. -/
theorem image_with_exif_destination_witness :
    ∃ st, extract_exif_from_image_and_move_to_dest_folder exifScenario 1
        ["src/photo.jpg"] "dest" true ⟨[], []⟩ = Except.ok st ∧
      st.success_list = ["dest/2021/2021_05/IMG_20210503_101500.jpg"] ∧
      st.problem_list = [] := by
  obtain ⟨st, h1, h2, h3⟩ :=
    image_with_exif_destination exifScenario 1 "src/photo.jpg" "dest"
      ⟨[], []⟩ "2021:05:03 10:15:00" "JPG" ⟨2021, 5, 3, 10, 15, 0⟩
      (by decide) (by decide) (by decide) (by decide)
  refine ⟨st, h1, ?_, h3⟩
  rw [h2]
  rfl

/-- Oracle modelling a batch in which no image can be opened at all. -/
def unopenableOracle : Oracles :=
  { openImage := fun _ => none, moveOk := fun _ _ => true }

/-- C3 (code bug): a file that cannot be opened at all, as the first file
of the batch, is not recorded as a per-file problem; the `except` handler
executes `image.close()` with `image` unbound, and the resulting
`NameError` aborts the whole batch. -/
theorem first_unopenable_image_aborts_batch :
    extract_exif_from_image_and_move_to_dest_folder unopenableOracle 5
      ["src/a.jpg", "src/b.jpg"] "dest" true ⟨[], []⟩ =
      Except.error "NameError: name image is not defined" := rfl

/-! ## Non-image mover: `move_other_files` -/

/-- Aggregate state of the `move_other_files` loop. -/
structure OtherState where
  fs : FS
  success_files : List String
  problem_files : List String

/-- One iteration of the `move_other_files` loop: stem and extension are
the `[0]` and `[1]` elements of the dot-split of the basename (a basename
with fewer than two dot-segments raises an uncaught `IndexError`), the
destination directory is `destination/Other Files/{extension}_Files`, then
resolve and move.  On success Python appends the SOURCE path to the
success list. -/
def processOther (orc : Oracles) (destination_path : String) (fuel : Nat)
    (st : OtherState) (file : String) : Except String OtherState :=
  match pySplit "." (pyBasename file) with
  | f0 :: f1 :: _ =>
    let base_path :=
      pjoin (pjoin destination_path "Other Files") (f1 ++ "_Files")
    let fs0 := ensureBase st.fs base_path
    (match create_dst_path_for_file fs0 fuel base_path f0 f1 with
    | (_, none) => Except.error "create_dst_path_for_file: probe fuel exhausted"
    | (fs1, some dst_path) =>
      if orc.moveOk file dst_path then
        Except.ok
          { fs := { fs1 with files := dst_path :: fs1.files.erase file },
            success_files := st.success_files ++ [file],
            problem_files := st.problem_files }
      else
        Except.ok
          { fs := fs1,
            success_files := st.success_files,
            problem_files := st.problem_files ++ [file] })
  | _ => Except.error "IndexError: list index out of range"

/-- `move_other_files(files, config)`. -/
def move_other_files (orc : Oracles) (fuel : Nat) (files : List String)
    (destination_path : String) (fs : FS) : Except String OtherState :=
  files.foldlM (processOther orc destination_path fuel) ⟨fs, [], []⟩

/-- The extension as the spec words it for non-image files: everything
after the FIRST dot of the basename. -/
def specExtAfterFirstDot (name : String) : String :=
  strOf (joinSep ['.'] ((splitOnL ['.'] name.toList).drop 1))

theorem ensureBase_idem (fs : FS) (b : String) :
    ensureBase (ensureBase fs b) b = ensureBase fs b := by
  unfold ensureBase
  by_cases h : pexists fs b = true
  · simp [h]
  · rw [if_neg h]
    have hb : pexists (makedirs b fs) b = true := by
      unfold pexists makedirs
      simp only [Bool.or_eq_true, decide_eq_true_eq]
      exact Or.inl (List.mem_append.mpr (Or.inl (self_mem_pathPrefixes b)))
    rw [if_pos hb]

/-- Single-character separators never occur inside the split's segments. -/
theorem splitOnL_single_no_sep (c : Char) :
    (l : List Char) → ∀ seg ∈ splitOnL [c] l, c ∉ seg
  | [] => by
    intro seg hseg
    have h : splitOnL [c] [] = [[]] := rfl
    rw [h] at hseg
    simp only [List.mem_singleton] at hseg
    subst hseg
    simp
  | c0 :: rest => by
    rw [splitOnL_cons]
    split
    · next hcut =>
      intro seg hseg
      simp only [List.length_cons, List.length_nil, Nat.add_sub_cancel,
        List.drop_zero] at hseg
      rcases List.mem_cons.mp hseg with he | he
      · subst he; simp
      · exact splitOnL_single_no_sep c rest seg he
    · next hcut =>
      have hc0 : c ≠ c0 := by
        intro he
        apply hcut
        refine ⟨by simp, ?_⟩
        rw [lPre]
        simp [he, lPre]
      rcases h : splitOnL [c] rest with _ | ⟨h0, t⟩
      · exact absurd h (splitOnL_ne_nil _ _)
      · intro seg hseg
        rcases List.mem_cons.mp hseg with he | he
        · subst he
          intro hmem
          rcases List.mem_cons.mp hmem with he2 | he2
          · exact hc0 he2
          · exact splitOnL_single_no_sep c rest h0 (by rw [h]; simp) he2
        · exact splitOnL_single_no_sep c rest seg (by rw [h]; simp [he])

/-- C7 (amended): for a non-image file whose basename dot-split has at
least two segments, the destination stem is the segment before the first
dot, the destination extension is the segment BETWEEN the first and second
dot (not everything after the first dot), and — absent collisions, with the
move succeeding — the file lands at
`destination/Other Files/{ext}_Files/{stem}.{ext lower-cased}`. -/
theorem move_other_files_destination
    (orc : Oracles) (fuel : Nat) (file destination_path : String) (fs : FS)
    (L0 L1 : List Char) (restL : List (List Char))
    (hsplit : splitOnL ['.'] (pyBasename file).toList = L0 :: L1 :: restL)
    (hnocol : pexists
        (ensureBase fs (pjoin (pjoin destination_path "Other Files")
          (strOf L1 ++ "_Files")))
        (pjoin (pjoin (pjoin destination_path "Other Files")
          (strOf L1 ++ "_Files")) (strOf L0 ++ "." ++ pyLower (strOf L1))) = false)
    (hmove : orc.moveOk file
        (pjoin (pjoin (pjoin destination_path "Other Files")
          (strOf L1 ++ "_Files")) (strOf L0 ++ "." ++ pyLower (strOf L1))) = true) :
    '.' ∉ L0 ∧
    (pyBasename file).toList = L0 ++ '.' :: joinSep ['.'] (L1 :: restL) ∧
    ∃ st, move_other_files orc fuel [file] destination_path fs = Except.ok st ∧
      st.success_files = [file] ∧ st.problem_files = [] ∧
      st.fs.files =
        (pjoin (pjoin (pjoin destination_path "Other Files")
          (strOf L1 ++ "_Files")) (strOf L0 ++ "." ++ pyLower (strOf L1))) ::
        (ensureBase fs (pjoin (pjoin destination_path "Other Files")
          (strOf L1 ++ "_Files"))).files.erase file := by
  refine ⟨?_, ?_, ?_⟩
  · exact splitOnL_single_no_sep '.' (pyBasename file).toList L0
      (by rw [hsplit]; simp)
  · have hjoin := joinSep_splitOnL ['.'] (pyBasename file).toList
    rw [hsplit] at hjoin
    rw [← hjoin]
    simp [joinSep]
  · have hps : pySplit "." (pyBasename file) =
        strOf L0 :: strOf L1 :: restL.map strOf := by
      unfold pySplit
      have h1 : ("." : String).toList = ['.'] := rfl
      rw [h1, hsplit]
      rfl
    have hdst : create_dst_path_for_file
        (ensureBase fs (pjoin (pjoin destination_path "Other Files")
          (strOf L1 ++ "_Files"))) fuel
        (pjoin (pjoin destination_path "Other Files") (strOf L1 ++ "_Files"))
        (strOf L0) (strOf L1) =
        (ensureBase fs (pjoin (pjoin destination_path "Other Files")
          (strOf L1 ++ "_Files")),
         some (pjoin (pjoin (pjoin destination_path "Other Files")
          (strOf L1 ++ "_Files")) (strOf L0 ++ "." ++ pyLower (strOf L1)))) := by
      unfold create_dst_path_for_file
      rw [ensureBase_idem]
      rw [hnocol]
      rfl
    have hstep : processOther orc destination_path fuel ⟨fs, [], []⟩ file =
        Except.ok
          { fs := { ensureBase fs (pjoin (pjoin destination_path "Other Files")
              (strOf L1 ++ "_Files")) with
              files := (pjoin (pjoin (pjoin destination_path "Other Files")
                (strOf L1 ++ "_Files")) (strOf L0 ++ "." ++ pyLower (strOf L1))) ::
                (ensureBase fs (pjoin (pjoin destination_path "Other Files")
                  (strOf L1 ++ "_Files"))).files.erase file },
            success_files := [file],
            problem_files := [] } := by
      unfold processOther
      rw [hps]
      simp only
      rw [hdst]
      simp only [hmove, if_true, List.nil_append]
    have hall : move_other_files orc fuel [file] destination_path fs =
        Except.ok
          { fs := { ensureBase fs (pjoin (pjoin destination_path "Other Files")
              (strOf L1 ++ "_Files")) with
              files := (pjoin (pjoin (pjoin destination_path "Other Files")
                (strOf L1 ++ "_Files")) (strOf L0 ++ "." ++ pyLower (strOf L1))) ::
                (ensureBase fs (pjoin (pjoin destination_path "Other Files")
                  (strOf L1 ++ "_Files"))).files.erase file },
            success_files := [file],
            problem_files := [] } := by
      show List.foldlM (processOther orc destination_path fuel)
        ⟨fs, [], []⟩ [file] = _
      rw [List.foldlM_cons, hstep]
      rfl
    exact ⟨_, hall, rfl, rfl, rfl⟩

/-- Oracle where every move succeeds and no path opens as an image. -/
def plainMoveOracle : Oracles :=
  { openImage := fun _ => none, moveOk := fun _ _ => true }

/-- C7 counterexample: for `archive.tar.gz` the claim's extension
(everything after the first dot) is `tar.gz`, but the code uses the middle
segment `tar`: the file lands at `dest/Other Files/tar_Files/archive.tar`,
dropping the `.gz` part. -/
theorem move_other_files_middle_segment_counterexample :
    specExtAfterFirstDot "archive.tar.gz" = "tar.gz" ∧
    ∃ st, move_other_files plainMoveOracle 1 ["src/archive.tar.gz"] "dest"
        ⟨[], []⟩ = Except.ok st ∧
      st.success_files = ["src/archive.tar.gz"] ∧
      st.fs.files = ["dest/Other Files/tar_Files/archive.tar"] := by
  exact ⟨rfl, ⟨_, rfl, rfl, rfl⟩⟩

/-- Concrete instantiation of the amended C7 on `src/archive.tar.gz`. -/
theorem move_other_files_destination_witness :
    '.' ∉ "archive".toList ∧
    (pyBasename "src/archive.tar.gz").toList =
      "archive".toList ++ '.' :: joinSep ['.'] ["tar".toList, "gz".toList] ∧
    ∃ st, move_other_files plainMoveOracle 7 ["src/archive.tar.gz"] "dest"
        ⟨[], []⟩ = Except.ok st ∧
      st.success_files = ["src/archive.tar.gz"] ∧ st.problem_files = [] ∧
      st.fs.files =
        (pjoin (pjoin (pjoin "dest" "Other Files")
          (strOf "tar".toList ++ "_Files"))
          (strOf "archive".toList ++ "." ++ pyLower (strOf "tar".toList))) ::
        (ensureBase (⟨[], []⟩ : FS) (pjoin (pjoin "dest" "Other Files")
          (strOf "tar".toList ++ "_Files"))).files.erase "src/archive.tar.gz" :=
  move_other_files_destination plainMoveOracle 7 "src/archive.tar.gz" "dest"
    ⟨[], []⟩ "archive".toList "tar".toList ["gz".toList]
    (by decide) (by decide) (by decide)

/-! ## Duplicate reconciler: `delete_copy_pictures_from_destination`

The destination tree's files are the state; a size oracle gives
`os.path.getsize` (which raises when the path does not exist), and a
removal oracle says whether `os.remove` raises for a path.  The `for`
loops that mutate their own list are embedded with Python's semantics
(an internal index that advances even when the current element was
removed, `list.remove` erasing the first occurrence). -/

/-- `file.split("Kopie")[0][:-1] + "." + file.split(".")[-1]`: the presumed
original of a disambiguated copy. -/
def orgFileOf (file : String) : String :=
  strOf ((splitOnL "Kopie".toList file.toList).headD []).dropLast ++ "." ++
    strOf ((splitOnL ['.'] file.toList).getLastD [])

/-- The first loop: compare each candidate's size with its presumed
original, collecting `deleted` and `problem` entries; `os.path.getsize`
on a missing original raises, aborting the whole pass. -/
def sizePass (files : List String) (sz : String → Nat) :
    List String → Except String (List String × List (String × String))
  | [] => Except.ok ([], [])
  | f :: rest =>
    if files.contains f then
      (if files.contains (orgFileOf f) then
        match sizePass files sz rest with
        | Except.error e => Except.error e
        | Except.ok (d, p) =>
          if sz f = sz (orgFileOf f) then Except.ok (f :: d, p)
          else Except.ok (d, (f, "Size does not match") :: p)
      else Except.error "FileNotFoundError: os.path.getsize")
    else
      match sizePass files sz rest with
      | Except.error e => Except.error e
      | Except.ok (d, p) => Except.ok (d, (f, "No file") :: p)

/-- One `for file in del_files` sweep, with Python's
mutation-during-iteration semantics and an internal index; the fuel is one
more than the number of remaining positions and never runs out. -/
def delPassAux (removeFails : String → Bool) :
    Nat → List String → List String → Nat →
    Except String (List String × List String)
  | 0, files, del, _ => Except.ok (files, del)
  | fuel + 1, files, del, i =>
    if h : i < del.length then
      let f := del.get ⟨i, h⟩
      if files.contains f then
        (if removeFails f then Except.error "OSError: os.remove failed"
         else delPassAux removeFails fuel (files.erase f) del (i + 1))
      else delPassAux removeFails fuel files (del.erase f) (i + 1)
    else Except.ok (files, del)

def delPass (removeFails : String → Bool) (files del : List String) :
    Except String (List String × List String) :=
  delPassAux removeFails (del.length + 1) files del 0

/-- The retry loop `while len(del_files) > 0 or counter < 10`, with fuel
for the iterations that the Python loop performs (it has no intrinsic
bound: with the `or` condition it spins until `del_files` empties). -/
def delLoop (removeFails : String → Bool) :
    Nat → List String → List String → Nat →
    Except String (List String × List String × Nat)
  | 0, _, _, _ => Except.error "while loop: fuel exhausted"
  | fuel + 1, files, del, counter =>
    if del.length > 0 ∨ counter < 10 then
      match delPass removeFails files del with
      | Except.error e => Except.error e
      | Except.ok (files2, del2) =>
        delLoop removeFails fuel files2 del2 (counter + 1)
    else Except.ok (files, del, counter)

/-- `delete_copy_pictures_from_destination(config)`: candidates are all
destination files containing "Kopie"; size-compare against the presumed
originals; delete with the retry loop; the post-loop report and the final
assert as in the source. -/
def delete_copy_pictures_from_destination (removeFails : String → Bool)
    (sz : String → Nat) (fuel : Nat) (files : List String) :
    Except String (List String × List (String × String)) :=
  let quene := files.filter (fun f => pyContains "Kopie" f && files.contains f)
  match sizePass files sz quene with
  | Except.error e => Except.error e
  | Except.ok (deleted_files, problem_files) =>
    match delLoop removeFails fuel files deleted_files 0 with
    | Except.error e => Except.error e
    | Except.ok (_, del2, _) =>
      let problem_files2 :=
        if del2.length > 0 then
          problem_files ++ del2.map (fun f => (f, "Could not be deleted"))
        else problem_files
      if quene.length = deleted_files.length + problem_files2.length then
        Except.ok (deleted_files, problem_files2)
      else Except.error "AssertionError: Length of delete lists do not match"

/-- The retry loop can only return (rather than raise or spin forever)
with an empty `del_files`: its exit condition is
`not (len > 0 or counter < 10)`.  Hence the post-loop failed-deletion
report is dead code. -/
theorem delLoop_ok_del_nil (removeFails : String → Bool) :
    ∀ fuel files del counter files2 del2 c2,
      delLoop removeFails fuel files del counter =
        Except.ok (files2, del2, c2) → del2 = [] := by
  intro fuel
  induction fuel with
  | zero =>
    intro files del counter f2 d2 c2 h
    exact absurd h (by simp [delLoop])
  | succ n ih =>
    intro files del counter f2 d2 c2 h
    rw [delLoop] at h
    split at h
    · cases hp : delPass removeFails files del with
      | error e => rw [hp] at h; exact absurd h (by simp)
      | ok fd =>
        obtain ⟨f3, d3⟩ := fd
        rw [hp] at h
        exact ih f3 d3 (counter + 1) f2 d2 c2 h
    · next hcond =>
      push_neg at hcond
      simp only [Except.ok.injEq, Prod.mk.injEq] at h
      obtain ⟨_, hd, _⟩ := h
      have hlen : del.length = 0 := by omega
      rw [← hd]
      exact List.length_eq_zero.mp hlen

/-- The first loop sorts every candidate into exactly one of the two
outcome lists. -/
theorem sizePass_partition (files : List String) (sz : String → Nat) :
    ∀ q d p, sizePass files sz q = Except.ok (d, p) →
      q.length = d.length + p.length := by
  intro q
  induction q with
  | nil =>
    intro d p h
    simp only [sizePass, Except.ok.injEq, Prod.mk.injEq] at h
    obtain ⟨h1, h2⟩ := h
    rw [← h1, ← h2]
    rfl
  | cons f rest ih =>
    intro d p h
    rw [sizePass] at h
    split at h
    · split at h
      · split at h
        · exact absurd h (by simp)
        · next d0 p0 heq =>
          have hr := ih d0 p0 heq
          split at h <;>
            (simp only [Except.ok.injEq, Prod.mk.injEq] at h
             obtain ⟨h1, h2⟩ := h
             rw [← h1, ← h2]
             simp only [List.length_cons]
             omega)
      · exact absurd h (by simp)
    · split at h
      · exact absurd h (by simp)
      · next d0 p0 heq =>
        have hr := ih d0 p0 heq
        simp only [Except.ok.injEq, Prod.mk.injEq] at h
        obtain ⟨h1, h2⟩ := h
        rw [← h1, ← h2]
        simp only [List.length_cons]
        omega

/-- C5: whenever the duplicate reconciler completes (returns rather than
raising), the number of selected candidates equals the number of files
recorded as deleted plus the number recorded as problems. -/
theorem delete_copy_partition_invariant
    (removeFails : String → Bool) (sz : String → Nat) (fuel : Nat)
    (files : List String) (d : List String) (p : List (String × String))
    (h : delete_copy_pictures_from_destination removeFails sz fuel files =
      Except.ok (d, p)) :
    (files.filter (fun f => pyContains "Kopie" f && files.contains f)).length =
      d.length + p.length := by
  unfold delete_copy_pictures_from_destination at h
  simp only at h
  split at h
  · exact absurd h (by simp)
  · next d0 p0 hsp =>
    split at h
    · exact absurd h (by simp)
    · next f2 d2 c2 hdl =>
      have hnil : d2 = [] :=
        delLoop_ok_del_nil removeFails fuel files d0 0 f2 d2 c2 hdl
      subst hnil
      simp only [List.length_nil, gt_iff_lt, Nat.lt_irrefl, if_false] at h
      split at h
      · simp only [Except.ok.injEq, Prod.mk.injEq] at h
        obtain ⟨h1, h2⟩ := h
        rw [← h1, ← h2]
        exact sizePass_partition files sz _ d0 p0 hsp
      · exact absurd h (by simp)

/-- Concrete instantiation of C5: one true duplicate, deleted cleanly. -/
theorem delete_copy_partition_invariant_witness :
    delete_copy_pictures_from_destination (fun _ => false) (fun _ => 5) 13
      ["dest/a.jpg", "dest/a_Kopie(1).jpg"] =
      Except.ok (["dest/a_Kopie(1).jpg"], []) ∧
    ((["dest/a.jpg", "dest/a_Kopie(1).jpg"] : List String).filter
      (fun f => pyContains "Kopie" f &&
        (["dest/a.jpg", "dest/a_Kopie(1).jpg"] : List String).contains f)).length =
      (["dest/a_Kopie(1).jpg"] : List String).length +
        ([] : List (String × String)).length :=
  ⟨rfl, delete_copy_partition_invariant (fun _ => false) (fun _ => 5) 13
    ["dest/a.jpg", "dest/a_Kopie(1).jpg"] ["dest/a_Kopie(1).jpg"] [] rfl⟩

/-- C4 (code bug): a marked duplicate whose removal fails is not reported
as a failed deletion after a 10-pass ceiling — the uncaught `OSError`
aborts the reconciler on the first pass (and, were removal to fail
silently, the `or` in `while len(del_files) > 0 or counter < 10` would
spin forever; the loop can only exit with the list empty, so the
failed-deletion report is dead code, cf. `delLoop_ok_del_nil`). -/
theorem delete_copy_remove_failure_aborts :
    delete_copy_pictures_from_destination (fun f => f = "dest/a_Kopie(1).jpg")
      (fun _ => 5) 13 ["dest/a.jpg", "dest/a_Kopie(1).jpg"] =
      Except.error "OSError: os.remove failed" := rfl

/-! ### C9: candidate selection and original-derivation of the reconciler -/

/-- When `a` is the prefix before the first occurrence of `sep` (no
occurrence starts inside `a`), the first split segment is exactly `a`. -/
theorem splitOnL_first (sep : List Char) (hsep : sep ≠ []) :
    (a b : List Char) →
    (∀ i, i < a.length → lPre sep ((a ++ sep ++ b).drop i) = false) →
    ∃ t, splitOnL sep (a ++ sep ++ b) = a :: t
  | [], b, _ => by
    obtain ⟨s0, ss, hs⟩ : ∃ s0 ss, sep = s0 :: ss := by
      cases sep with
      | nil => exact absurd rfl hsep
      | cons s0 ss => exact ⟨s0, ss, rfl⟩
    have hl : ([] : List Char) ++ sep ++ b = s0 :: (ss ++ b) := by
      rw [hs]; rfl
    rw [hl, splitOnL_cons]
    have hpre : lPre sep (s0 :: (ss ++ b)) = true := by
      have h2 : s0 :: (ss ++ b) = sep ++ b := by rw [hs]; rfl
      rw [h2]
      exact (lPre_iff sep (sep ++ b)).mpr (List.prefix_append sep b)
    rw [if_pos ⟨hsep, hpre⟩]
    exact ⟨_, rfl⟩
  | x :: a', b, hmin => by
    have hl : (x :: a') ++ sep ++ b = x :: (a' ++ sep ++ b) := rfl
    rw [hl, splitOnL_cons]
    have hcut : ¬(sep ≠ [] ∧ lPre sep (x :: (a' ++ sep ++ b)) = true) := by
      rintro ⟨_, hp⟩
      have h0 := hmin 0 (by simp)
      rw [List.drop_zero, hl] at h0
      rw [h0] at hp
      cases hp
    rw [if_neg hcut]
    obtain ⟨t, ht⟩ := splitOnL_first sep hsep a' b (fun i hi => by
      have hs := hmin (i + 1) (by simp only [List.length_cons]; omega)
      have hd : ((x :: a') ++ sep ++ b).drop (i + 1) = (a' ++ sep ++ b).drop i := by
        rw [hl, List.drop_succ_cons]
      rw [hd] at hs
      exact hs)
    refine ⟨t, ?_⟩
    rw [ht]

/-- A list without the separator splits into just itself. -/
theorem splitOnL_single_not_mem (c : Char) :
    (l : List Char) → c ∉ l → splitOnL [c] l = [l]
  | [], _ => rfl
  | x :: rest, hmem => by
    rw [splitOnL_cons]
    have hx : ¬(([c] : List Char) ≠ [] ∧ lPre [c] (x :: rest) = true) := by
      rintro ⟨_, hp⟩
      rw [lPre] at hp
      simp only [Bool.and_eq_true, decide_eq_true_eq] at hp
      exact hmem (by rw [hp.1]; simp)
    rw [if_neg hx]
    rw [splitOnL_single_not_mem c rest (fun hc => hmem (List.mem_cons_of_mem _ hc))]

/-- A list containing the separator splits into at least two segments. -/
theorem splitOnL_single_two_le (c : Char) :
    (l : List Char) → c ∈ l → 2 ≤ (splitOnL [c] l).length
  | [], hmem => absurd hmem (by simp)
  | x :: rest, hmem => by
    rw [splitOnL_cons]
    by_cases hx : c = x
    · rw [if_pos ⟨by simp, by rw [lPre]; simp [hx, lPre]⟩]
      have hpos : 0 < (splitOnL [c] (rest.drop ([c].length - 1))).length :=
        List.length_pos.mpr (splitOnL_ne_nil [c] (rest.drop ([c].length - 1)))
      show 2 ≤ (splitOnL [c] (rest.drop ([c].length - 1))).length + 1
      omega
    · have hcr : c ∈ rest := by
        rcases List.mem_cons.mp hmem with he | he
        · exact absurd he hx
        · exact he
      have hx2 : ¬(([c] : List Char) ≠ [] ∧ lPre [c] (x :: rest) = true) := by
        rintro ⟨_, hp⟩
        rw [lPre] at hp
        simp only [Bool.and_eq_true, decide_eq_true_eq] at hp
        exact hx hp.1
      rw [if_neg hx2]
      have hrec := splitOnL_single_two_le c rest hcr
      rcases hsp : splitOnL [c] rest with _ | ⟨h0, t⟩
      · exact absurd hsp (splitOnL_ne_nil _ _)
      · rw [hsp] at hrec
        simp only [List.length_cons] at hrec ⊢
        omega

theorem getLastD_eq_of_ne_nil {α : Type} (t : List α) (h : t ≠ []) (a b : α) :
    t.getLastD a = t.getLastD b := by
  cases t with
  | nil => exact absurd rfl h
  | cons x xs => rw [List.getLastD_cons, List.getLastD_cons]

/-- The last split segment is everything after the last separator. -/
theorem splitOnL_last_seg (c : Char) :
    (u v : List Char) → c ∉ v →
    (splitOnL [c] (u ++ c :: v)).getLastD [] = v
  | [], v, hv => by
    rw [List.nil_append, splitOnL_cons]
    rw [if_pos ⟨by simp, by rw [lPre]; simp [lPre]⟩]
    simp only [List.length_cons, List.length_nil, Nat.zero_add, Nat.sub_self,
      List.drop_zero]
    rw [splitOnL_single_not_mem c v hv]
    rfl
  | x :: u', v, hv => by
    have hl : (x :: u') ++ c :: v = x :: (u' ++ c :: v) := rfl
    rw [hl, splitOnL_cons]
    have hIH := splitOnL_last_seg c u' v hv
    split
    · simp only [List.length_cons, List.length_nil, Nat.zero_add, Nat.sub_self,
        List.drop_zero]
      rw [List.getLastD_cons]
      exact hIH
    · rcases hsp : splitOnL [c] (u' ++ c :: v) with _ | ⟨h0, t⟩
      · exact absurd hsp (splitOnL_ne_nil _ _)
      · have hlen2 : 2 ≤ (splitOnL [c] (u' ++ c :: v)).length :=
          splitOnL_single_two_le c (u' ++ c :: v)
            (List.mem_append.mpr (Or.inr (by simp)))
        rw [hsp] at hlen2
        simp only [List.length_cons] at hlen2
        have htne : t ≠ [] := by
          intro he
          rw [he] at hlen2
          simp at hlen2
        rw [hsp] at hIH
        rw [List.getLastD_cons] at hIH ⊢
        rw [getLastD_eq_of_ne_nil t htne (x :: h0) h0]
        exact hIH

/-- C9: the reconciler selects as deletion candidates exactly the
destination files whose FULL PATH contains "Kopie" anywhere — no check of
the exact `_Kopie(i)` suffix shape — so files inside a "Kopie"-named
directory or with an organic "Kopie" stem qualify; and each candidate's
presumed original is derived by cutting the path at the FIRST occurrence
of "Kopie", dropping one further trailing character, and appending "."
plus the substring after the last dot. -/
theorem delete_copy_candidate_selection
    (files : List String) (file : String) (a b u v : List Char)
    (hdecomp : file.toList = a ++ "Kopie".toList ++ b)
    (hmin : ∀ i, i < a.length → lPre "Kopie".toList (file.toList.drop i) = false)
    (hdot : file.toList = u ++ '.' :: v) (hv : '.' ∉ v)
    (hmem : file ∈ files) :
    file ∈ files.filter (fun f => pyContains "Kopie" f && files.contains f) ∧
    (∀ g ∈ files.filter (fun f => pyContains "Kopie" f && files.contains f),
      ∃ a2 b2, g.toList = a2 ++ "Kopie".toList ++ b2) ∧
    orgFileOf file = strOf a.dropLast ++ "." ++ strOf v := by
  refine ⟨?_, ?_, ?_⟩
  · rw [List.mem_filter]
    refine ⟨hmem, ?_⟩
    rw [Bool.and_eq_true]
    constructor
    · exact (lContains_iff _ _).mpr ⟨a, b, hdecomp⟩
    · exact List.elem_eq_true_of_mem hmem
  · intro g hg
    rw [List.mem_filter, Bool.and_eq_true] at hg
    exact (lContains_iff _ _).mp hg.2.1
  · obtain ⟨t, ht⟩ := splitOnL_first "Kopie".toList (by simp) a b (by
      intro i hi
      have := hmin i hi
      rw [hdecomp] at this
      exact this)
    have hL1 : splitOnL "Kopie".toList file.toList = a :: t := by
      rw [hdecomp]; exact ht
    have hL2 : (splitOnL ['.'] file.toList).getLastD [] = v := by
      rw [hdot]; exact splitOnL_last_seg '.' u v hv
    unfold orgFileOf
    rw [hL1, hL2]
    rfl

/-- Concrete instantiation of C9: `d/MyKopieDir/x.jpg` — where "Kopie"
occurs only in a DIRECTORY name — is selected as a candidate, and its
presumed original is computed as `d/M.jpg`. -/
theorem delete_copy_candidate_selection_witness :
    "d/MyKopieDir/x.jpg" ∈ (["d/MyKopieDir/x.jpg"] : List String).filter
      (fun f => pyContains "Kopie" f &&
        (["d/MyKopieDir/x.jpg"] : List String).contains f) ∧
    (∀ g ∈ (["d/MyKopieDir/x.jpg"] : List String).filter
      (fun f => pyContains "Kopie" f &&
        (["d/MyKopieDir/x.jpg"] : List String).contains f),
      ∃ a2 b2, g.toList = a2 ++ "Kopie".toList ++ b2) ∧
    orgFileOf "d/MyKopieDir/x.jpg" =
      strOf "d/My".toList.dropLast ++ "." ++ strOf "jpg".toList :=
  delete_copy_candidate_selection ["d/MyKopieDir/x.jpg"] "d/MyKopieDir/x.jpg"
    "d/My".toList "Dir/x.jpg".toList "d/MyKopieDir/x".toList "jpg".toList
    (by decide) (by decide) (by decide) (by decide) (by decide)

/-! ## Empty-directory pruner: `delete_empty_folders`

Paths are component lists here.  `os.walk(directory, topdown=False)`
scans each directory's listing when the walk first enters it — before any
deletion inside that directory's subtree can have happened — and yields it
post-order; since the loop only ever removes directories (never adds), a
directory's reported listing equals its children at the start of the pass.
The walk is therefore embedded as the post-order list of
`(dirpath, dirnames, filenames)` snapshots of the pass-start tree, and the
`os.rmdir` calls fold over it. -/

/-- A filesystem path as a list of components. -/
abbrev CPath := List String

/-- The tree the pruner works on: existing directories and files. -/
structure DirTree where
  dirs : List CPath
  files : List CPath
deriving DecidableEq

/-- The child directories of `d`. -/
def dirChildren (t : DirTree) (d : CPath) : List CPath :=
  t.dirs.filter (fun c => !c.isEmpty && c.dropLast == d)

/-- The files directly inside `d`. -/
def dirFiles (t : DirTree) (d : CPath) : List CPath :=
  t.files.filter (fun c => !c.isEmpty && c.dropLast == d)

/-- `os.walk(·, topdown=False)` on the snapshot `t`: post-order entries
`(dirpath, dirnames, filenames)`. -/
def walkPost (t : DirTree) : Nat → CPath → List (CPath × List CPath × List CPath)
  | 0, d => [(d, dirChildren t d, dirFiles t d)]
  | fuel + 1, d =>
    ((dirChildren t d).map (walkPost t fuel)).flatten ++
      [(d, dirChildren t d, dirFiles t d)]

/-- The `for dirpath, dirnames, filenames in os.walk(...)` body: remove
`dirpath` when both listings are empty and it is not the root. -/
def rmdirFold (root : CPath) :
    List (CPath × List CPath × List CPath) → List CPath → List CPath
  | [], dirs => dirs
  | (dirpath, dirnames, filenames) :: rest, dirs =>
    if dirnames = [] ∧ filenames = [] ∧ dirpath ≠ root then
      rmdirFold root rest (dirs.erase dirpath)
    else rmdirFold root rest dirs

/-- One of the `levels` passes of `delete_empty_folders`. -/
def onePass (root : CPath) (t : DirTree) : DirTree :=
  if t.dirs.contains root then
    { t with dirs := rmdirFold root (walkPost t (t.dirs.length + 1) root) t.dirs }
  else t

/-- `delete_empty_folders(directory, levels)`: repeat the bottom-up pass
`levels` times. -/
def delete_empty_folders (root : CPath) : Nat → DirTree → DirTree
  | 0, t => t
  | n + 1, t => onePass root (delete_empty_folders root n t)

theorem rmdirFold_mem_root (root : CPath) :
    ∀ items dirs, root ∈ dirs → root ∈ rmdirFold root items dirs := by
  intro items
  induction items with
  | nil => intro dirs h; exact h
  | cons e rest ih =>
    intro dirs h
    obtain ⟨dirpath, dirnames, filenames⟩ := e
    rw [rmdirFold]
    split
    · next hguard =>
      exact ih (dirs.erase dirpath)
        ((List.mem_erase_of_ne hguard.2.2.symm).mpr h)
    · exact ih dirs h

/-- If the fold dropped `d`, some walk entry for `d` passed the guard. -/
theorem rmdirFold_removed (root : CPath) :
    ∀ items dirs d, d ∈ dirs → d ∉ rmdirFold root items dirs →
      ∃ dirnames filenames, (d, dirnames, filenames) ∈ items ∧
        dirnames = [] ∧ filenames = [] ∧ d ≠ root := by
  intro items
  induction items with
  | nil => intro dirs d h1 h2; exact absurd h1 h2
  | cons e rest ih =>
    intro dirs d h1 h2
    obtain ⟨dirpath, dirnames, filenames⟩ := e
    rw [rmdirFold] at h2
    split at h2
    · next hguard =>
      by_cases hd : d = dirpath
      · subst hd
        exact ⟨dirnames, filenames, by simp, hguard.1, hguard.2.1, hguard.2.2⟩
      · have hmem : d ∈ dirs.erase dirpath := (List.mem_erase_of_ne hd).mpr h1
        obtain ⟨dn, fn, hin, h3, h4, h5⟩ := ih (dirs.erase dirpath) d hmem h2
        exact ⟨dn, fn, by simp [hin], h3, h4, h5⟩
    · obtain ⟨dn, fn, hin, h3, h4, h5⟩ := ih dirs d h1 h2
      exact ⟨dn, fn, by simp [hin], h3, h4, h5⟩

/-- Every walk entry carries the snapshot listings of its directory. -/
theorem walkPost_entries (t : DirTree) :
    ∀ fuel d e, e ∈ walkPost t fuel d →
      e.2.1 = dirChildren t e.1 ∧ e.2.2 = dirFiles t e.1 := by
  intro fuel
  induction fuel with
  | zero =>
    intro d e he
    rw [walkPost] at he
    simp only [List.mem_singleton] at he
    subst he
    exact ⟨rfl, rfl⟩
  | succ n ih =>
    intro d e he
    rw [walkPost] at he
    rcases List.mem_append.mp he with hin | hin
    · obtain ⟨l, hl, hel⟩ := List.mem_flatten.mp hin
      obtain ⟨c, _, hc⟩ := List.mem_map.mp hl
      exact ih c e (hc ▸ hel)
    · simp only [List.mem_singleton] at hin
      subst hin
      exact ⟨rfl, rfl⟩

/-- A directory removed by a pass was empty in that pass's snapshot (and,
since directories are only ever removed, also at the moment of its
`os.rmdir`), and is not the root. -/
theorem onePass_removed_empty (root : CPath) (t : DirTree) (d : CPath)
    (h1 : d ∈ t.dirs) (h2 : d ∉ (onePass root t).dirs) :
    d ≠ root ∧ dirChildren t d = [] ∧ dirFiles t d = [] := by
  unfold onePass at h2
  split at h2
  · simp only at h2
    obtain ⟨dn, fn, hin, h3, h4, h5⟩ :=
      rmdirFold_removed root (walkPost t (t.dirs.length + 1) root) t.dirs d h1 h2
    obtain ⟨he1, he2⟩ := walkPost_entries t (t.dirs.length + 1) root (d, dn, fn) hin
    exact ⟨h5, by rw [← he1]; exact h3, by rw [← he2]; exact h4⟩
  · exact absurd h1 h2

theorem onePass_files (root : CPath) (t : DirTree) :
    (onePass root t).files = t.files := by
  unfold onePass
  split <;> rfl

theorem onePass_root_mem (root : CPath) (t : DirTree)
    (h : root ∈ t.dirs) : root ∈ (onePass root t).dirs := by
  unfold onePass
  split
  · exact rmdirFold_mem_root root _ t.dirs h
  · exact h

/-- C8: over `levels` bottom-up passes, the root directory is never
removed, the file set is untouched, and every directory that disappears
was removed in some single pass in whose snapshot (hence at the moment of
its visit) it had no child directories and no files. -/
theorem delete_empty_folders_spec (root : CPath) (levels : Nat) (t : DirTree) :
    (root ∈ t.dirs → root ∈ (delete_empty_folders root levels t).dirs) ∧
    (delete_empty_folders root levels t).files = t.files ∧
    ∀ d, d ∈ t.dirs → d ∉ (delete_empty_folders root levels t).dirs →
      d ≠ root ∧
      ∃ k, k < levels ∧
        d ∈ (delete_empty_folders root k t).dirs ∧
        d ∉ (onePass root (delete_empty_folders root k t)).dirs ∧
        dirChildren (delete_empty_folders root k t) d = [] ∧
        dirFiles (delete_empty_folders root k t) d = [] := by
  induction levels with
  | zero =>
    refine ⟨fun h => h, rfl, ?_⟩
    intro d h1 h2
    exact absurd h1 h2
  | succ n ih =>
    obtain ⟨ihroot, ihfiles, ihrem⟩ := ih
    refine ⟨?_, ?_, ?_⟩
    · intro h
      exact onePass_root_mem root _ (ihroot h)
    · rw [delete_empty_folders, onePass_files, ihfiles]
    · intro d h1 h2
      rw [delete_empty_folders] at h2
      by_cases hmid : d ∈ (delete_empty_folders root n t).dirs
      · obtain ⟨hne, hch, hfi⟩ := onePass_removed_empty root _ d hmid h2
        exact ⟨hne, n, by omega, hmid, h2, hch, hfi⟩
      · obtain ⟨hne, k, hk, hkk⟩ := ihrem d h1 hmid
        exact ⟨hne, k, by omega, hkk⟩

/-- Concrete instantiation of C8: two passes on `r/a/b` empty nesting;
the root survives and the files are untouched. -/
theorem delete_empty_folders_spec_witness :
    ["r"] ∈ (delete_empty_folders ["r"] 2
      ⟨[["r"], ["r", "a"], ["r", "a", "b"]], [["r", "x.txt"]]⟩).dirs ∧
    (delete_empty_folders ["r"] 2
      ⟨[["r"], ["r", "a"], ["r", "a", "b"]], [["r", "x.txt"]]⟩).files =
      [["r", "x.txt"]] :=
  ⟨(delete_empty_folders_spec ["r"] 2
      ⟨[["r"], ["r", "a"], ["r", "a", "b"]], [["r", "x.txt"]]⟩).1 (by decide),
   (delete_empty_folders_spec ["r"] 2
      ⟨[["r"], ["r", "a"], ["r", "a", "b"]], [["r", "x.txt"]]⟩).2.1⟩

end FotoOrg
